import Mathlib

/-!
# Verification of the rtve-dl pipeline core

A shallow embedding of the parts of `rtve-dl` (Python) that the checked
claims are about, together with theorems settling those claims.

Modelling conventions, used throughout:

* A Python `str` is modelled as `List Char` (Python strings are sequences
  of Unicode code points).  All string operations the code uses
  (`split`, `strip`, `rstrip`, `join`, decimal formatting, …) are
  re-implemented structurally so every definition is executable by the
  kernel.  `str.strip()` and the regex class `\s` are modelled over the
  ASCII whitespace characters, which are the only ones the code paths
  under verification can produce.
* The file system is modelled as an association list from paths to typed
  file contents; a missing key is a missing file.  Only the durable
  artifacts the control flow observes (chunk output `.jsonl` files, the
  no-chunk cache file, raw `.tsv` response files) are tracked.  Input
  payload files, prompt construction, logging and telemetry are elided:
  the source writes them unconditionally and never branches on them.
* External subprocesses (the translation backend CLI, ffmpeg/ffprobe,
  curl) are oracles: arbitrary functions supplied as parameters, indexed
  by an invocation counter so distinct invocations may behave
  differently.  The SHA-256-based correlation id of `_model_id` is an
  uninterpreted hash-function parameter for the same reason.
* Python `dict`s are association lists with insertion-order semantics:
  updating an existing key rewrites it in place, a new key is appended.
-/

/-- A Python string: the list of its characters (code points). -/
abbrev PyStr := List Char

/-- Characters of Python's ASCII whitespace class (`str.strip()` /
regex `\s`, restricted to ASCII as explained in the header). -/
def isPySpace (c : Char) : Bool :=
  c = ' ' || c = '\t' || c = '\n' || c = '\r' || c = '\x0b' || c = '\x0c'

/-- Python `s.strip()`: drop whitespace from both ends. -/
def pyStrip (s : PyStr) : PyStr :=
  ((s.dropWhile isPySpace).reverse.dropWhile isPySpace).reverse

/-- Python `s.rstrip("\r")`: drop trailing carriage returns. -/
def rstripCR (s : PyStr) : PyStr :=
  (s.reverse.dropWhile (fun c => c = '\r')).reverse

/-- Python `s.split(sep)` for a single-character separator
(`"".split(sep) == [""]`, empty fields kept). -/
def splitOnChar (sep : Char) : PyStr → List PyStr
  | [] => [[]]
  | c :: cs =>
    let r := splitOnChar sep cs
    if c = sep then [] :: r
    else
      match r with
      | [] => [[c]]
      | h :: t => (c :: h) :: t

/-- Python `sep.join(xs)` for a single-character separator. -/
def joinChar (sep : Char) : List PyStr → PyStr
  | [] => []
  | [x] => x
  | x :: xs => x ++ sep :: joinChar sep xs

/-- Convenience: characters of a Lean string literal. -/
def sLit (s : String) : PyStr := s.data

/-- Value of an ASCII digit character. -/
def digitVal (c : Char) : Nat := c.toNat - 48

/-- Decimal digits of a positive `n`, most significant first
(`natStrAux fuel 0 = []`).  Fuel-structural so the kernel can reduce it;
`fuel ≥ n` makes it the exact decimal expansion. -/
def natStrAux : Nat → Nat → List Char
  | 0, _ => []
  | _ + 1, 0 => []
  | fuel + 1, n + 1 =>
    natStrAux fuel ((n + 1) / 10) ++ [Nat.digitChar ((n + 1) % 10)]

/-- Python `str(n)` for a non-negative integer `n`. -/
def natStr (n : Nat) : PyStr :=
  if n = 0 then ['0'] else natStrAux n n

/-- Python `f"{n:0kd}"`: left-pad the decimal expansion with zeros to
width `k`. -/
def padZ (k : Nat) (n : Nat) : PyStr :=
  List.replicate (k - (natStr n).length) '0' ++ natStr n

/-- Python `int(s)` on a string of decimal digits. -/
def strToNat (s : PyStr) : Nat :=
  s.foldl (fun a c => a * 10 + digitVal c) 0

theorem digitChar_isDigit : ∀ d < 10, (Nat.digitChar d).isDigit = true := by decide

theorem digitVal_digitChar : ∀ d < 10, digitVal (Nat.digitChar d) = d := by decide

theorem digitChar_not_space : ∀ d < 10, isPySpace (Nat.digitChar d) = false := by decide

theorem natStrAux_digits {fuel n : Nat} :
    ∀ c ∈ natStrAux fuel n, ∃ d, d < 10 ∧ c = Nat.digitChar d := by
  induction fuel generalizing n with
  | zero => intro c hc; simp [natStrAux] at hc
  | succ f ih =>
    intro c hc
    match n with
    | 0 => simp [natStrAux] at hc
    | m + 1 =>
      simp only [natStrAux, List.mem_append, List.mem_singleton] at hc
      rcases hc with hc | hc
      · exact ih c hc
      · exact ⟨(m + 1) % 10, Nat.mod_lt _ (by norm_num), hc⟩

theorem natStr_digits {n : Nat} :
    ∀ c ∈ natStr n, ∃ d, d < 10 ∧ c = Nat.digitChar d := by
  intro c hc
  by_cases h : n = 0
  · subst h; simp [natStr] at hc; exact ⟨0, by norm_num, hc⟩
  · simp [natStr, h] at hc; exact natStrAux_digits c hc

theorem natStr_isDigit {n : Nat} : ∀ c ∈ natStr n, c.isDigit = true := by
  intro c hc
  obtain ⟨d, hd, rfl⟩ := natStr_digits c hc
  exact digitChar_isDigit d hd

/-- Accumulator version of `strToNat`. -/
theorem strToNat_append (a : PyStr) (c : Char) :
    strToNat (a ++ [c]) = strToNat a * 10 + digitVal c := by
  simp [strToNat, List.foldl_append]

theorem natStrAux_val {fuel n : Nat} (h : n ≤ fuel) :
    ∀ a : Nat, (natStrAux fuel n).foldl (fun x c => x * 10 + digitVal c) a
      = a * 10 ^ (natStrAux fuel n).length + n := by
  induction fuel generalizing n with
  | zero =>
    interval_cases n
    intro a; simp [natStrAux]
  | succ f ih =>
    intro a
    match n with
    | 0 => simp [natStrAux]
    | m + 1 =>
      have hdiv : (m + 1) / 10 ≤ f := by omega
      have hrec := ih hdiv a
      simp only [natStrAux, List.foldl_append]
      simp only [List.foldl_cons] at hrec ⊢
      rw [List.length_append, List.length_singleton]
      have hfold :
          List.foldl (fun x c => x * 10 + digitVal c) a (natStrAux f ((m + 1) / 10))
            = a * 10 ^ (natStrAux f ((m + 1) / 10)).length + (m + 1) / 10 := hrec
      rw [hfold]
      simp only [List.foldl_cons, List.foldl_nil]
      rw [digitVal_digitChar _ (Nat.mod_lt _ (by norm_num))]
      rw [pow_succ]
      have := Nat.div_add_mod (m + 1) 10
      ring_nf
      omega

theorem strToNat_natStr (n : Nat) : strToNat (natStr n) = n := by
  by_cases h : n = 0
  · subst h; simp [natStr, strToNat, digitVal]
  · have := natStrAux_val (Nat.le_refl n) 0
    simpa [natStr, h, strToNat] using this

theorem natStr_injective {m n : Nat} (h : natStr m = natStr n) : m = n := by
  have := strToNat_natStr m
  rw [h, strToNat_natStr] at this
  omega

theorem strToNat_padZ (k n : Nat) : strToNat (padZ k n) = n := by
  have : ∀ j, strToNat (List.replicate j '0' ++ natStr n) = strToNat (natStr n) := by
    intro j
    induction j with
    | zero => simp
    | succ i ih =>
      simp only [List.replicate_succ, List.cons_append]
      simp only [strToNat, List.foldl_cons] at ih ⊢
      simpa [digitVal] using ih
  rw [padZ, this, strToNat_natStr]

theorem natStr_ne_nil (n : Nat) : natStr n ≠ [] := by
  by_cases h : n = 0
  · subst h; simp [natStr]
  · have := strToNat_natStr n
    intro hnil
    rw [hnil] at this
    simp [strToNat] at this
    omega

/-! ## Python dict and file-system models -/

/-- Lookup in an association list (first match). -/
def alGet (k : PyStr) : List (PyStr × α) → Option α
  | [] => none
  | (k2, v) :: rest => if k = k2 then some v else alGet k rest

/-- A Python `dict[str, str]` with insertion order. -/
abbrev SMap := List (PyStr × PyStr)

/-- Python `d[k] = v`: rewrite an existing key in place, else append. -/
def dictSet (m : SMap) (k v : PyStr) : SMap :=
  if (alGet k m).isSome then
    m.map (fun p => if p.1 = k then (k, v) else p)
  else m ++ [(k, v)]

/-- Python `d.update(d2)`. -/
def dictUpdate (m m2 : SMap) : SMap :=
  m2.foldl (fun acc p => dictSet acc p.1 p.2) m


theorem alGet_append (q : PyStr) (m1 m2 : List (PyStr × α)) :
    alGet q (m1 ++ m2) = (alGet q m1).or (alGet q m2) := by
  induction m1 with
  | nil => simp [alGet]
  | cons p rest ih =>
    by_cases hq : q = p.1
    · simp [alGet, hq]
    · simp [alGet, hq, ih]

theorem alGet_rewriteMap_ne {q k : PyStr} (v : PyStr) (h : q ≠ k) (m : SMap) :
    alGet q (m.map (fun p => if p.1 = k then (k, v) else p)) = alGet q m := by
  induction m with
  | nil => rfl
  | cons p rest ih =>
    obtain ⟨pk, pv⟩ := p
    simp only [List.map_cons]
    by_cases hp : pk = k
    · rw [if_pos (by simpa using hp)]
      have hq : q ≠ pk := fun hh => h (hh ▸ hp)
      simp only [alGet, if_neg h, if_neg hq]
      exact ih
    · rw [if_neg (by simpa using hp)]
      simp only [alGet]
      by_cases hq : q = pk
      · rw [if_pos hq, if_pos hq]
      · rw [if_neg hq, if_neg hq]
        exact ih

theorem alGet_rewriteMap_self {k : PyStr} (v : PyStr) (m : SMap)
    (h : (alGet k m).isSome) :
    alGet k (m.map (fun p => if p.1 = k then (k, v) else p)) = some v := by
  induction m with
  | nil => simp [alGet] at h
  | cons p rest ih =>
    obtain ⟨pk, pv⟩ := p
    simp only [List.map_cons]
    by_cases hp : pk = k
    · rw [if_pos (by simpa using hp)]
      simp [alGet]
    · rw [if_neg (by simpa using hp)]
      have hq : k ≠ pk := fun hh => hp hh.symm
      simp only [alGet, if_neg hq] at h ⊢
      exact ih h

theorem alGet_dictSet_self (m : SMap) (k v : PyStr) :
    alGet k (dictSet m k v) = some v := by
  unfold dictSet
  by_cases h : (alGet k m).isSome
  · simp [h, alGet_rewriteMap_self v m h]
  · simp [h, alGet_append, Option.not_isSome_iff_eq_none.mp h, alGet]

theorem alGet_dictSet_ne (m : SMap) (k v q : PyStr) (h : q ≠ k) :
    alGet q (dictSet m k v) = alGet q m := by
  unfold dictSet
  by_cases hs : (alGet k m).isSome
  · simp [hs, alGet_rewriteMap_ne v h m]
  · rw [if_neg hs, alGet_append]
    simp only [alGet, if_neg h]
    exact Option.or_none

theorem alGet_dictSet_isSome (m : SMap) (k v q : PyStr) :
    (alGet q (dictSet m k v)).isSome = ((alGet q m).isSome || q = k) := by
  by_cases hq : q = k
  · subst hq; simp [alGet_dictSet_self]
  · simp [alGet_dictSet_ne m k v q hq, hq]

theorem alGet_dictUpdate_isSome (m m2 : SMap) (q : PyStr) :
    (alGet q (dictUpdate m m2)).isSome
      = ((alGet q m).isSome || (alGet q m2).isSome) := by
  unfold dictUpdate
  induction m2 generalizing m with
  | nil => simp [alGet]
  | cons p rest ih =>
    obtain ⟨pk, pv⟩ := p
    simp only [List.foldl_cons, ih, alGet_dictSet_isSome]
    by_cases hq : q = pk <;> simp [alGet, hq, Bool.or_assoc, Bool.or_comm]

/-! ## codex_batch.py: TSV rows, echo verification -/

/-- `_tsv_escape`: backslash-escape backslash/tab/newline, drop CR.
The source applies four sequential `str.replace` calls over disjoint
character classes, which equals this single pass. -/
def tsv_escape (s : PyStr) : PyStr :=
  s.flatMap (fun c =>
    if c = '\\' then ['\\', '\\']
    else if c = '\t' then ['\\', 't']
    else if c = '\r' then []
    else if c = '\n' then ['\\', 'n']
    else [c])

/-- `_tsv_unescape`: the explicit index loop of the source. -/
def tsv_unescape : PyStr → PyStr
  | [] => []
  | c :: rest =>
    if c ≠ '\\' then c :: tsv_unescape rest
    else
      match rest with
      | [] => ['\\']
      | nxt :: rest2 =>
        (if nxt = 'n' then '\n'
         else if nxt = 't' then '\t'
         else if nxt = '\\' then '\\'
         else nxt) :: tsv_unescape rest2

/-- Quote normalization table of `normalize_es_text`. -/
def quoteTrans (c : Char) : Char :=
  if c = '‘' ∨ c = '’' then '\''
  else if c = '“' ∨ c = '”' ∨ c = '«' ∨ c = '»' ∨ c = '„' then '"'
  else c

/-- `re.sub(r"\s+", " ", s)`: collapse each whitespace run to one space. -/
def squashSpacesAux (prevSpace : Bool) : PyStr → PyStr
  | [] => []
  | c :: cs =>
    if isPySpace c then
      if prevSpace then squashSpacesAux true cs else ' ' :: squashSpacesAux true cs
    else c :: squashSpacesAux false cs

/-- `normalize_es_text` from global_phrase_cache.py: strip, normalize
ellipsis and quotes, collapse whitespace, lowercase. -/
def normalize_es_text (t : PyStr) : PyStr :=
  let s := pyStrip t
  if s = [] then []
  else
    let s1 := s.flatMap (fun c => if c = '…' then sLit "..." else [c])
    let s2 := s1.map quoteTrans
    let s3 := squashSpacesAux false s2
    s3.map Char.toLower

/-- Character class of `_LEADING_PUNCT_RE` (whitespace plus the listed
punctuation). -/
def isLeadingPunct (c : Char) : Bool :=
  isPySpace c || c ∈ ['-', '–', '—', '.', ',', '!', '?', ':', ';',
    '"', '\'', '“', '”', '‘', '’', '(', ')', '[', ']', '{', '}']

/-- `_strip_leading_punct`. -/
def strip_leading_punct (t : PyStr) : PyStr := t.dropWhile isLeadingPunct

/-- `_make_echo`: normalized, punctuation-stripped 16-character prefix. -/
def make_echo (text : PyStr) : PyStr :=
  pyStrip ((strip_leading_punct (normalize_es_text text)).take 16)

/-- `_parse_tsv_with_echo`: accept a response row only when its
first-column correlation id is a pending request and its last-column echo
equals the precomputed echo.  `expected` maps a correlation id to the
`(cue_id, echo)` pair built by `_build_expected_map`; the file is given as
its list of lines (`splitlines`). -/
def tsvRowStep (expected : List (PyStr × PyStr × PyStr)) (out : SMap)
    (line : PyStr) : SMap :=
  let row := rstripCR line
  if pyStrip row = [] then out
  else
    let parts := splitOnChar '\t' row
    if parts.length < 3 then out
    else
      let modelId := pyStrip (tsv_unescape (parts.headD []))
      let echo := pyStrip (tsv_unescape (parts.getLastD []))
      let text := pyStrip (tsv_unescape (parts.getD 1 []))
      match alGet modelId expected with
      | none => out
      | some q => if echo = q.2 then dictSet out modelId text else out

def parse_tsv_with_echo (lines : List PyStr)
    (expected : List (PyStr × PyStr × PyStr)) : SMap :=
  lines.foldl (tsvRowStep expected) []

/-! ## codex_batch.py: chunk paths, file-system values -/

/-- `CodexChunkPaths` (paths modelled as character lists). -/
structure CodexChunkPaths where
  in_jsonl : PyStr
  out_jsonl : PyStr
  in_tsv : PyStr
  out_tsv : PyStr
deriving DecidableEq

/-- Backend failure kinds, standing for the distinct `RuntimeError`
messages `run_codex_chunk` raises; `rate limited` is the only message
containing the rate-limit signature that `_run_codex_chunks` greps for. -/
inductive ChunkErr where
  | authFail
  | rateLimited
  | exitFail
  | unparseableOut
deriving DecidableEq

/-- `"rate limited" in str(err).lower()`. -/
def ChunkErr.isRateLimited : ChunkErr → Bool
  | .rateLimited => true
  | _ => false

/-- Error outcomes of the translation entry points. -/
inductive TErr where
  | badChunkSize
  | badIoTag
  | backendFail (e : ChunkErr)
  | missingChunkOut (p : PyStr)
  | unreadableFile (p : PyStr)
  | missingIds (ids : List PyStr)
  | loopFuel
deriving DecidableEq

/-- Contents of one tracked file. -/
inductive FileVal where
  | jsonl (rows : List (PyStr × PyStr))
  | cacheFmt (fmt : Nat) (rows : List (PyStr × PyStr))
  | tsv (lines : List PyStr)
deriving DecidableEq

/-- The file system: association list path → content. -/
abbrev FS := List (PyStr × FileVal)

/-- Generic association-list write (Python dict-set semantics). -/
def alSet (m : List (PyStr × α)) (k : PyStr) (v : α) : List (PyStr × α) :=
  if (alGet k m).isSome then
    m.map (fun p => if p.1 = k then (k, v) else p)
  else m ++ [(k, v)]

/-- `path.stat().st_size > 0` for a tracked file: a `.jsonl` map file is
empty iff it has no rows, the no-chunk cache always starts with its meta
line, a text file is empty iff it has no lines. -/
def FileVal.sizePos : FileVal → Bool
  | .jsonl rows => !rows.isEmpty
  | .cacheFmt _ _ => true
  | .tsv lines => !lines.isEmpty

/-- The row fold of `_parse_jsonl_map`: strip ids, skip falsy ids, later
rows overwrite earlier ones. -/
def rowsToMap (rows : List (PyStr × PyStr)) : SMap :=
  rows.foldl (fun m p =>
    let cid := pyStrip p.1
    if cid ≠ [] then dictSet m cid p.2 else m) []

/-- `_parse_jsonl_map` on a tracked file's content (the no-chunk cache's
meta line has no `id` key, so it is skipped; a non-JSONL text file yields
no parseable lines). -/
def parseJsonlVal : FileVal → SMap
  | .jsonl rows => rowsToMap rows
  | .cacheFmt _ rows => rowsToMap rows
  | .tsv _ => []

/-- `_is_nochunk_cache_compatible`: first line must be a `_meta` object
with `format == 2` (`_NOCHUNK_CACHE_FORMAT`). -/
def isNochunkCompatible : FileVal → Bool
  | .cacheFmt fmt _ => fmt = 2
  | _ => false

/-- `str(base_path) + f".c{chunk_cues}"`. -/
def chunkStem (basePath : PyStr) (chunkSize : Nat) : PyStr :=
  basePath ++ sLit ".c" ++ natStr chunkSize

/-- The four per-chunk file paths of `chunk_cues` for 1-based index
`idx`. -/
def mkChunkPaths (basePath : PyStr) (chunkSize : Nat) (ioTag : PyStr)
    (idx : Nat) : CodexChunkPaths :=
  let stem := chunkStem basePath chunkSize
  { in_jsonl := stem ++ '.' :: (ioTag ++ sLit ".in." ++ padZ 4 idx ++ sLit ".jsonl")
    out_jsonl := stem ++ '.' :: (ioTag ++ sLit ".out." ++ padZ 4 idx ++ sLit ".jsonl")
    in_tsv := stem ++ '.' :: (ioTag ++ sLit ".in." ++ padZ 4 idx ++ sLit ".tsv")
    out_tsv := stem ++ '.' :: (ioTag ++ sLit ".out." ++ padZ 4 idx ++ sLit ".tsv") }

/-- `chunk_cues`: validate arguments, then produce one `CodexChunkPaths`
per `chunk_size`-sized slice of `cues` (indices `1 .. ceil(n/size)`).
The writing of the input payload files is elided (see header). -/
def chunk_cues (cues : List (PyStr × PyStr)) (chunkSize : Nat)
    (basePath ioTag : PyStr) : Except TErr (List CodexChunkPaths) :=
  if chunkSize = 0 then .error .badChunkSize
  else if ioTag = [] ∨ ioTag.any (fun c => !(c.toNat < 128)) then .error .badIoTag
  else .ok ((List.range ((cues.length + chunkSize - 1) / chunkSize)).map
    (fun i => mkChunkPaths basePath chunkSize ioTag (i + 1)))

theorem dot_not_digit : ('.').isDigit = false := by decide

theorem digits_dot_append_inj {a b r1 r2 : PyStr}
    (ha : ∀ c ∈ a, c.isDigit = true) (hb : ∀ c ∈ b, c.isDigit = true)
    (h : a ++ '.' :: r1 = b ++ '.' :: r2) : a = b := by
  induction a generalizing b with
  | nil =>
    cases b with
    | nil => rfl
    | cons d bs =>
      exfalso
      simp only [List.nil_append, List.cons_append, List.cons.injEq] at h
      have hd := hb d (by simp)
      rw [← h.1] at hd
      simp [dot_not_digit] at hd
  | cons c as ih =>
    cases b with
    | nil =>
      exfalso
      simp only [List.nil_append, List.cons_append, List.cons.injEq] at h
      have hc := ha c (by simp)
      rw [h.1] at hc
      simp [dot_not_digit] at hc
    | cons d bs =>
      simp only [List.cons_append, List.cons.injEq] at h
      have := ih (fun x hx => ha x (by simp [hx]))
        (fun x hx => hb x (by simp [hx])) h.2
      rw [h.1, this]

theorem chunkStem_dot_inj {base : PyStr} {k1 k2 : Nat} {r1 r2 : PyStr}
    (h : chunkStem base k1 ++ '.' :: r1 = chunkStem base k2 ++ '.' :: r2) :
    k1 = k2 := by
  unfold chunkStem at h
  rw [List.append_assoc, List.append_assoc, List.append_assoc, List.append_assoc] at h
  have h2 := List.append_cancel_left h
  have h3 := List.append_cancel_left h2
  exact natStr_injective
    (digits_dot_append_inj (fun c hc => natStr_isDigit c hc)
      (fun c hc => natStr_isDigit c hc) h3)

theorem mem_chunkPathList_shape {b t : PyStr} {k i : Nat} {q : PyStr}
    (hq : q ∈ [(mkChunkPaths b k t i).in_jsonl, (mkChunkPaths b k t i).out_jsonl,
      (mkChunkPaths b k t i).in_tsv, (mkChunkPaths b k t i).out_tsv]) :
    ∃ r, q = chunkStem b k ++ '.' :: r := by
  simp only [mkChunkPaths, List.mem_cons, List.mem_singleton, List.not_mem_nil,
    or_false] at hq
  rcases hq with rfl | rfl | rfl | rfl <;> exact ⟨_, rfl⟩

/-- C4.  For one base path and io tag, distinct positive chunk sizes give
pairwise distinct chunk file paths (the path embeds the chunk size right
after the base path, terminated by a dot that can never be a digit), so a
chunked run configured with one size never resumes from output produced
under another. -/
theorem chunk_cues_paths_disjoint_of_ne_size
    (base ioTag : PyStr) (k1 k2 : Nat) (cues1 cues2 : List (PyStr × PyStr))
    (cs1 cs2 : List CodexChunkPaths)
    (hk1 : 0 < k1) (hk2 : 0 < k2) (hne : k1 ≠ k2)
    (h1 : chunk_cues cues1 k1 base ioTag = .ok cs1)
    (h2 : chunk_cues cues2 k2 base ioTag = .ok cs2) :
    ∀ p1 ∈ cs1, ∀ p2 ∈ cs2,
      ∀ q1 ∈ [p1.in_jsonl, p1.out_jsonl, p1.in_tsv, p1.out_tsv],
        ∀ q2 ∈ [p2.in_jsonl, p2.out_jsonl, p2.in_tsv, p2.out_tsv], q1 ≠ q2 := by
  intro p1 hp1 p2 hp2 q1 hq1 q2 hq2 heq
  unfold chunk_cues at h1 h2
  rw [if_neg (by omega : ¬k1 = 0)] at h1
  rw [if_neg (by omega : ¬k2 = 0)] at h2
  by_cases htag : ioTag = [] ∨ ioTag.any (fun c => !(c.toNat < 128))
  · rw [if_pos htag] at h1; cases h1
  · rw [if_neg htag] at h1
    rw [if_neg htag] at h2
    cases h1; cases h2
    obtain ⟨i1, _, rfl⟩ := List.mem_map.mp hp1
    obtain ⟨i2, _, rfl⟩ := List.mem_map.mp hp2
    obtain ⟨r1, rfl⟩ := mem_chunkPathList_shape hq1
    obtain ⟨r2, rfl⟩ := mem_chunkPathList_shape hq2
    exact hne (chunkStem_dot_inj heq)

/-- Witness for C4 at concrete inputs (sizes 1 and 2). -/
theorem chunk_cues_paths_disjoint_witness :
    (mkChunkPaths (sLit "/tmp/base") 1 (sLit "ru") 1).in_jsonl
      ≠ (mkChunkPaths (sLit "/tmp/base") 2 (sLit "ru") 1).in_jsonl := by
  have h := chunk_cues_paths_disjoint_of_ne_size (sLit "/tmp/base") (sLit "ru") 1 2
    [(sLit "1", sLit "hola")] [(sLit "1", sLit "hola")]
    [mkChunkPaths (sLit "/tmp/base") 1 (sLit "ru") 1]
    [mkChunkPaths (sLit "/tmp/base") 2 (sLit "ru") 1]
    (by decide) (by decide) (by decide) rfl rfl
  exact h (mkChunkPaths (sLit "/tmp/base") 1 (sLit "ru") 1) (by simp)
    (mkChunkPaths (sLit "/tmp/base") 2 (sLit "ru") 1) (by simp)
    (mkChunkPaths (sLit "/tmp/base") 1 (sLit "ru") 1).in_jsonl (by simp)
    (mkChunkPaths (sLit "/tmp/base") 2 (sLit "ru") 1).in_jsonl (by simp)

/-! ## codex_batch.py: the chunk scheduler `_run_codex_chunks` -/

/-- The external translation backend as an oracle.  `runChunk` stands for
one `run_codex_chunk` invocation (one blocking subprocess): given the
global invocation counter, the model to use and the chunk, it transforms
the file system (on success the source writes the verified, remapped map
to `chunk.out_jsonl`) and reports `none` for success or the kind of
`RuntimeError` raised.  `runSingle` is the single no-chunk request of
`_translate_no_chunk`, which writes the raw response to the given
`.tsv` path. -/
structure Backend where
  runChunk : Nat → Option PyStr → CodexChunkPaths → FS → FS × Option ChunkErr
  runSingle : Nat → Option PyStr → PyStr → FS → FS × Option ChunkErr

/-- One pass of `_run_codex_chunks` over the pending chunks: run every
chunk once with the given model, collecting the failed ones in order.
(The thread pool joins on all futures, so a pass is modelled
sequentially; only the multiset of failures is control-flow relevant,
and `failed[0]` on the sequential order matches `workers == 1`.) -/
def runPass (B : Backend) (model : Option PyStr) :
    List CodexChunkPaths → FS → Nat → FS × Nat × List (CodexChunkPaths × ChunkErr)
  | [], fs, calls => (fs, calls, [])
  | ch :: rest, fs, calls =>
    let out := B.runChunk calls model ch fs
    let r := runPass B model rest out.1 (calls + 1)
    match out.2 with
    | none => r
    | some e => (r.1, r.2.1, (ch, e) :: r.2.2)

/-- Python truthiness of `fallback_model` (`str | None`). -/
def fbTruthy : Option PyStr → Bool
  | none => false
  | some s => !s.isEmpty

/-- Ghost record of one `while pending:` iteration, for stating
scheduling properties: the model and worker count the pass ran with,
whether the fallback had already been consumed, the chunks attempted and
those that failed. -/
structure PassRec where
  runModel : Option PyStr
  workers : Nat
  fallbackDone : Bool
  pending : List CodexChunkPaths
  failed : List (CodexChunkPaths × ChunkErr)
deriving DecidableEq

/-- Result of the scheduler loop. -/
inductive RunOut where
  | ok (fs : FS) (calls : Nat)
  | err (e : ChunkErr) (fs : FS) (calls : Nat)
  | fuelOut
deriving DecidableEq

/-- The `while pending:` loop of `_run_codex_chunks`.  Each iteration
runs the pending chunks; on failures it first retries them on an unused,
distinct, truthy fallback model (workers unchanged), otherwise drops
workers to 2 when a failure carries the rate-limit signature and
workers > 2, otherwise re-raises the first failure.  The loop body runs
at most three times (the two escalations are one-shot), so structural
fuel replaces the unbounded `while`; `runChunksLoop_no_fuelOut` shows
fuel 3 is never exhausted. -/
def runChunksLoop (B : Backend) (model fbModel : Option PyStr) :
    Nat → List CodexChunkPaths → Nat → Bool → FS → Nat → RunOut × List PassRec
  | 0, _, _, _, _, _ => (.fuelOut, [])
  | _ + 1, [], _, _, fs, calls => (.ok fs calls, [])
  | fuel + 1, pending@(_ :: _), workers, fallbackDone, fs, calls =>
    let runModel := if fallbackDone then fbModel else model
    let out := runPass B runModel pending fs calls
    let fs1 := out.1
    let calls1 := out.2.1
    let failed := out.2.2
    let pr : PassRec := ⟨runModel, workers, fallbackDone, pending, failed⟩
    match failed with
    | [] => (.ok fs1 calls1, [pr])
    | (_, e0) :: _ =>
      if ¬fallbackDone ∧ fbTruthy fbModel ∧ fbModel ≠ model then
        let r := runChunksLoop B model fbModel fuel (failed.map (·.1)) workers true fs1 calls1
        (r.1, pr :: r.2)
      else if (failed.any (fun p => p.2.isRateLimited)) ∧ workers > 2 then
        let r := runChunksLoop B model fbModel fuel (failed.map (·.1)) 2 fallbackDone fs1 calls1
        (r.1, pr :: r.2)
      else (.err e0 fs1 calls1, [pr])

/-- `_run_codex_chunks`: early return on no chunks, then the loop with
`workers = max(1, max_workers)`, `fallback_done = False`. -/
def run_codex_chunks (B : Backend) (chunks : List CodexChunkPaths)
    (model fbModel : Option PyStr) (maxWorkers : Nat) (fs : FS) (calls : Nat) :
    RunOut × List PassRec :=
  match chunks with
  | [] => (.ok fs calls, [])
  | _ :: _ => runChunksLoop B model fbModel 3 chunks (max 1 maxWorkers) false fs calls

/-- Fuel adequacy: the loop never runs out of fuel when the fuel exceeds
the escalation measure (unused fallback + undropped workers). -/
theorem runChunksLoop_no_fuelOut (B : Backend) (model fbModel : Option PyStr) :
    ∀ (fuel : Nat) (pending : List CodexChunkPaths) (workers : Nat)
      (fallbackDone : Bool) (fs : FS) (calls : Nat),
      (if fallbackDone then 0 else 1) + (if 2 < workers then 1 else 0) < fuel →
      (runChunksLoop B model fbModel fuel pending workers fallbackDone fs calls).1
        ≠ .fuelOut := by
  intro fuel
  induction fuel with
  | zero => intro pending workers fallbackDone fs calls h; omega
  | succ f ih =>
    intro pending workers fallbackDone fs calls h
    match pending with
    | [] => simp [runChunksLoop]
    | ch :: rest =>
      simp only [runChunksLoop]
      set out := runPass B (if fallbackDone then fbModel else model) (ch :: rest) fs calls with hout
      match hfail : out.2.2 with
      | [] => simp
      | (c0, e0) :: more =>
        dsimp only
        by_cases hfb : ¬fallbackDone ∧ fbTruthy fbModel ∧ fbModel ≠ model
        · rw [if_pos hfb]
          have hfd : fallbackDone = false := by
            rcases hfb with ⟨h1, -, -⟩
            cases fallbackDone
            · rfl
            · exact absurd rfl h1
          subst hfd
          apply ih
          by_cases hw : 2 < workers <;> simp [hw] at h ⊢ <;> omega
        · rw [if_neg hfb]
          by_cases hrl : (((c0, e0) :: more).any (fun p => p.2.isRateLimited)) ∧ workers > 2
          · rw [if_pos hrl]
            apply ih
            have : ¬2 < 2 := by omega
            simp only [this, if_false]
            rcases hrl with ⟨-, h2⟩
            have h3 : (if 2 < workers then 1 else 0) = 1 := by simp [h2]
            omega
          · rw [if_neg hrl]
            simp

/-- Relation between consecutive scheduler passes.  Follows the amended
claim's words: a failing pass is retried on the unused, distinct, truthy
fallback model first — regardless of failure kind — with the worker
count unchanged; only when no such fallback retry is available does a
rate-limit failure at workers > 2 drop the worker count to 2, keeping
the model; in both cases exactly the failed chunks are retried. -/
def escalationStep (model fbModel : Option PyStr) (p q : PassRec) : Prop :=
  q.pending = p.failed.map (·.1) ∧
  (if ¬p.fallbackDone ∧ fbTruthy fbModel ∧ fbModel ≠ model then
    q.fallbackDone = true ∧ q.workers = p.workers ∧ q.runModel = fbModel
  else
    q.fallbackDone = p.fallbackDone ∧ q.workers = 2 ∧ p.workers > 2 ∧
      p.failed.any (fun x => x.2.isRateLimited) = true ∧ q.runModel = p.runModel)

theorem runChunksLoop_trace_head (B : Backend) (model fbModel : Option PyStr)
    (fuel : Nat) (ch : CodexChunkPaths) (rest : List CodexChunkPaths)
    (workers : Nat) (fallbackDone : Bool) (fs : FS) (calls : Nat) :
    ∀ q ∈ (runChunksLoop B model fbModel (fuel + 1) (ch :: rest) workers
        fallbackDone fs calls).2.head?,
      q.runModel = (if fallbackDone then fbModel else model) ∧
      q.workers = workers ∧ q.fallbackDone = fallbackDone ∧
      q.pending = ch :: rest := by
  intro q hq
  simp only [runChunksLoop] at hq
  set out := runPass B (if fallbackDone then fbModel else model) (ch :: rest) fs calls
    with hout
  match hfail : out.2.2 with
  | [] =>
    rw [hfail] at hq
    simp only [List.head?_cons, Option.mem_def, Option.some.injEq] at hq
    subst hq
    exact ⟨rfl, rfl, rfl, rfl⟩
  | (c0, e0) :: more =>
    rw [hfail] at hq
    dsimp only at hq
    by_cases hfb : ¬fallbackDone ∧ fbTruthy fbModel ∧ fbModel ≠ model
    · rw [if_pos hfb] at hq
      simp only [List.head?_cons, Option.mem_def, Option.some.injEq] at hq
      subst hq
      exact ⟨rfl, rfl, rfl, rfl⟩
    · rw [if_neg hfb] at hq
      by_cases hrl : (((c0, e0) :: more).any (fun p => p.2.isRateLimited)) ∧ workers > 2
      · rw [if_pos hrl] at hq
        simp only [List.head?_cons, Option.mem_def, Option.some.injEq] at hq
        subst hq
        exact ⟨rfl, rfl, rfl, rfl⟩
      · rw [if_neg hrl] at hq
        simp only [List.head?_cons, Option.mem_def, Option.some.injEq] at hq
        subst hq
        exact ⟨rfl, rfl, rfl, rfl⟩

theorem runChunksLoop_chain (B : Backend) (model fbModel : Option PyStr) :
    ∀ (fuel : Nat) (pending : List CodexChunkPaths) (workers : Nat)
      (fallbackDone : Bool) (fs : FS) (calls : Nat),
      List.Chain' (escalationStep model fbModel)
        (runChunksLoop B model fbModel fuel pending workers fallbackDone fs calls).2 := by
  intro fuel
  induction fuel with
  | zero => intro pending workers fallbackDone fs calls; simp [runChunksLoop]
  | succ f ih =>
    intro pending workers fallbackDone fs calls
    match pending with
    | [] => simp [runChunksLoop]
    | ch :: rest =>
      simp only [runChunksLoop]
      set out := runPass B (if fallbackDone then fbModel else model) (ch :: rest) fs calls
        with hout
      match hfail : out.2.2 with
      | [] => simp
      | (c0, e0) :: more =>
        dsimp only
        by_cases hfb : ¬fallbackDone ∧ fbTruthy fbModel ∧ fbModel ≠ model
        · rw [if_pos hfb]
          apply List.chain'_cons'.mpr
          refine ⟨?_, ih _ _ _ _ _⟩
          match f with
          | 0 => simp [runChunksLoop]
          | f2 + 1 =>
            match hm : (((c0, e0) :: more).map (·.1)) with
            | [] => simp at hm
            | m0 :: mrest =>
              intro q hq
              have hh := runChunksLoop_trace_head B model fbModel f2 m0 mrest
                workers true out.1 out.2.1 q (by rw [hm] at hq; exact hq)
              have hfd : fallbackDone = false := by
                rcases hfb with ⟨h1, -, -⟩
                cases fallbackDone
                · rfl
                · exact absurd rfl h1
              subst hfd
              constructor
              · rw [hh.2.2.2, hm]
              · rw [if_pos (by simpa using hfb)]
                refine ⟨hh.2.2.1, hh.2.1, ?_⟩
                rw [hh.1]
                simp
        · rw [if_neg hfb]
          by_cases hrl : (((c0, e0) :: more).any (fun p => p.2.isRateLimited)) ∧ workers > 2
          · rw [if_pos hrl]
            apply List.chain'_cons'.mpr
            refine ⟨?_, ih _ _ _ _ _⟩
            match f with
            | 0 => simp [runChunksLoop]
            | f2 + 1 =>
              match hm : (((c0, e0) :: more).map (·.1)) with
              | [] => simp at hm
              | m0 :: mrest =>
                intro q hq
                have hh := runChunksLoop_trace_head B model fbModel f2 m0 mrest
                  2 fallbackDone out.1 out.2.1 q (by rw [hm] at hq; exact hq)
                constructor
                · rw [hh.2.2.2, hm]
                · rw [if_neg (by simpa using hfb)]
                  exact ⟨hh.2.2.1, hh.2.1, hrl.2, hrl.1, hh.1⟩
          · rw [if_neg hrl]
            simp

/-- C2 (amended): every execution trace of `_run_codex_chunks` follows
the escalation policy of `escalationStep` between consecutive passes:
the first remediation for a failing pass is the unused fallback model
(failure kind irrelevant, workers unchanged); the drop to 2 workers on a
rate-limit signature at workers > 2 happens only when no unused fallback
is available, and keeps the model. -/
theorem run_codex_chunks_escalation (B : Backend) (chunks : List CodexChunkPaths)
    (model fbModel : Option PyStr) (maxWorkers : Nat) (fs : FS) (calls : Nat) :
    List.Chain' (escalationStep model fbModel)
      (run_codex_chunks B chunks model fbModel maxWorkers fs calls).2 := by
  match chunks with
  | [] => simp [run_codex_chunks]
  | _ :: _ => exact runChunksLoop_chain B model fbModel 3 _ _ _ _ _

instance : Inhabited PassRec := ⟨⟨none, 0, false, [], []⟩⟩

/-- Concrete backend whose first invocation fails with the rate-limit
signature and whose later invocations succeed. -/
def rlBackend : Backend where
  runChunk := fun calls _ _ fs => (fs, if calls = 0 then some .rateLimited else none)
  runSingle := fun _ _ _ fs => (fs, none)

/-- One concrete chunk. -/
def rlChunk : CodexChunkPaths :=
  ⟨sLit "b.in.jsonl", sLit "b.out.jsonl", sLit "b.in.tsv", sLit "b.out.tsv"⟩

/-- The trace of the scheduler on that backend with primary model `m`,
fallback model `f` and parallelism 4. -/
def rlTrace : List PassRec :=
  (run_codex_chunks rlBackend [rlChunk] (some (sLit "m")) (some (sLit "f"))
    4 [] 0).2

/-- Counterexample to C2 as stated: the first pass fails with a
rate-limit signature at parallelism 4 > 2, yet the next pass is the
fallback-model retry at parallelism 4 — parallelism is not dropped to 2
before other remediation, and the fallback retry is applied to a
rate-limit failure. -/
theorem run_codex_chunks_rate_limit_counterexample :
    (rlTrace.getD 0 default).failed.any (fun q => q.2.isRateLimited) = true ∧
    (rlTrace.getD 0 default).workers = 4 ∧
    (rlTrace.getD 1 default).workers = 4 ∧
    (rlTrace.getD 1 default).fallbackDone = true ∧
    (rlTrace.getD 1 default).runModel = some (sLit "f") := by decide

/-! ## codex_batch.py: the translate entry points -/

/-- `missing = sorted(want - set(merged.keys()))`.  `want` is kept as a
deduplicated list; the numeric sort only affects log samples and retry
grouping, never membership or length, and is elided. -/
def missingOf (want : List PyStr) (m : SMap) : List PyStr :=
  want.filter (fun i => (alGet i m).isNone)

/-- The merge loops over chunk output files: missing file ⇒ error
(`raise missing output chunk` on the main pass, `FileNotFoundError` from
`read_text` on the chunked retry pass), else `merged.update(parse)`. -/
def mergeChunkOuts (fs : FS) : List CodexChunkPaths → SMap → Except TErr SMap
  | [], merged => .ok merged
  | ch :: rest, merged =>
    match alGet ch.out_jsonl fs with
    | none => .error (.missingChunkOut ch.out_jsonl)
    | some v => mergeChunkOuts fs rest (dictUpdate merged (parseJsonlVal v))

/-- The no-chunk retry merge guards each read with
`if ch.out_jsonl.exists()`, skipping missing files. -/
def mergeChunkOutsLenient (fs : FS) : List CodexChunkPaths → SMap → SMap
  | [], merged => merged
  | ch :: rest, merged =>
    match alGet ch.out_jsonl fs with
    | none => mergeChunkOutsLenient fs rest merged
    | some v => mergeChunkOutsLenient fs rest (dictUpdate merged (parseJsonlVal v))

/-- The gap-filling retry loop of `_translate_es_chunked`: for each
retry size, rebuild chunks of the still-missing cues under the
`.retry{attempt}` base path and run the scheduler again. -/
def chunkedRetry (B : Backend) (cues : List (PyStr × PyStr)) (want : List PyStr)
    (basePath ioTag : PyStr) (model fbModel : Option PyStr) (maxWorkers : Nat) :
    List Nat → Nat → SMap → FS → Nat → Except TErr (FS × Nat × SMap)
  | [], _, merged, fs, calls => .ok (fs, calls, merged)
  | sz :: sizes, attempt, merged, fs, calls =>
    let missing := missingOf want merged
    if missing.isEmpty then .ok (fs, calls, merged)
    else
      let missingCues := cues.filter (fun p => decide (p.1 ∈ missing))
      let retryBase := basePath ++ sLit ".retry" ++ natStr attempt
      match chunk_cues missingCues sz retryBase ioTag with
      | .error e => .error e
      | .ok retryChunks =>
        match run_codex_chunks B retryChunks model fbModel maxWorkers fs calls with
        | (.fuelOut, _) => .error .loopFuel
        | (.err e _ _, _) => .error (.backendFail e)
        | (.ok fs1 calls1, _) =>
          match mergeChunkOuts fs1 retryChunks merged with
          | .error e => .error e
          | .ok merged1 =>
            chunkedRetry B cues want basePath ioTag model fbModel maxWorkers
              sizes (attempt + 1) merged1 fs1 calls1

/-- `_translate_es_chunked`: build chunk paths, resume over non-empty
cached chunk outputs, run the scheduler, merge all chunk outputs, then
gap-fill missing ids at sizes `min(50, chunk), 10, 1` and fail if ids
remain missing. -/
def translate_es_chunked (B : Backend) (cues : List (PyStr × PyStr))
    (basePath : PyStr) (chunkSize : Nat) (model fbModel : Option PyStr)
    (resume : Bool) (ioTag : PyStr) (maxWorkers : Nat) (fs : FS) (calls : Nat) :
    Except TErr (FS × Nat × SMap) :=
  match chunk_cues cues chunkSize basePath ioTag with
  | .error e => .error e
  | .ok chunks =>
    let pending := chunks.filter (fun ch =>
      !(resume && ((alGet ch.out_jsonl fs).elim false FileVal.sizePos)))
    match run_codex_chunks B pending model fbModel maxWorkers fs calls with
    | (.fuelOut, _) => .error .loopFuel
    | (.err e _ _, _) => .error (.backendFail e)
    | (.ok fs1 calls1, _) =>
      match mergeChunkOuts fs1 chunks [] with
      | .error e => .error e
      | .ok merged =>
        let want := (cues.map (·.1)).dedup
        if (missingOf want merged).isEmpty then .ok (fs1, calls1, merged)
        else
          match chunkedRetry B cues want basePath ioTag model fbModel maxWorkers
              [min 50 chunkSize, 10, 1] 1 merged fs1 calls1 with
          | .error e => .error e
          | .ok (fs2, calls2, merged2) =>
            if (missingOf want merged2).isEmpty then .ok (fs2, calls2, merged2)
            else .error (.missingIds (missingOf want merged2))

/-- `_build_expected_map` with the correlation-id hash `H` as an
uninterpreted parameter (`_model_id` is a SHA-256 digest). -/
def buildExpected (H : PyStr → PyStr → PyStr) (cues : List (PyStr × PyStr)) :
    List (PyStr × PyStr × PyStr) :=
  cues.foldl (fun ex p => alSet ex (H p.1 p.2) (p.1, make_echo p.2)) []

/-- The `remapped` loop: translate verified rows back from correlation
ids to cue ids. -/
def remapParsed (expected : List (PyStr × PyStr × PyStr)) (parsed : SMap) : SMap :=
  parsed.foldl (fun rm p =>
    match alGet p.1 expected with
    | none => rm
    | some q => dictSet rm q.1 p.2) []

/-- Raw text lines of a tracked file (`read_text().splitlines()`).  The
`.tsv` response files are the only ones read this way; a `.jsonl`-valued
file would contribute no line with three tab-separated fields, so it is
modelled as unparseable. -/
def fileLinesVal : FileVal → List PyStr
  | .tsv lines => lines
  | _ => []

/-- The no-chunk gap-filling loop: retry the missing ids through the
chunked scheduler (`fallback_model=None`, `max_workers=1`) at the listed
sizes under the `.nochunk_retry` base, merging whatever chunk outputs
exist (the retry-context rewrite of the input payload files is elided,
see header). -/
def nochunkRetry (B : Backend) (cues : List (PyStr × PyStr)) (want : List PyStr)
    (basePath ioTag : PyStr) (model : Option PyStr) :
    List Nat → SMap → FS → Nat → Except TErr (FS × Nat × SMap)
  | [], parsed, fs, calls => .ok (fs, calls, parsed)
  | sz :: sizes, parsed, fs, calls =>
    let missing := missingOf want parsed
    if missing.isEmpty then .ok (fs, calls, parsed)
    else
      let cueMap := cues.foldl (fun m p => dictSet m p.1 p.2) []
      let retryCues := missing.map (fun mid => (mid, (alGet mid cueMap).getD []))
      match chunk_cues retryCues sz (basePath ++ sLit ".nochunk_retry")
          (ioTag ++ sLit "_retry") with
      | .error e => .error e
      | .ok retryChunks =>
        match run_codex_chunks B retryChunks model none 1 fs calls with
        | (.fuelOut, _) => .error .loopFuel
        | (.err e _ _, _) => .error (.backendFail e)
        | (.ok fs1 calls1, _) =>
          nochunkRetry B cues want basePath ioTag model sizes
            (mergeChunkOutsLenient fs1 retryChunks parsed) fs1 calls1

/-- Tail of `_translate_no_chunk` from the `missing` computation on: if
ids are missing, run the no-chunk retry loop at sizes
`min(50, len(missing)), 10, 1`, rewrite the cache, and fail loudly if
ids remain missing. -/
def nochunkFinish (B : Backend) (cues : List (PyStr × PyStr)) (want : List PyStr)
    (basePath ioTag : PyStr) (model : Option PyStr) (cacheFile : PyStr)
    (parsed : SMap) (fs : FS) (calls : Nat) : Except TErr (FS × Nat × SMap) :=
  let missing := missingOf want parsed
  if missing.isEmpty then .ok (fs, calls, parsed)
  else
    match nochunkRetry B cues want basePath ioTag model
        [min 50 missing.length, 10, 1] parsed fs calls with
    | .error e => .error e
    | .ok (fs1, calls1, parsed1) =>
      let fs2 := alSet fs1 cacheFile (.cacheFmt 2 parsed1)
      if (missingOf want parsed1).isEmpty then .ok (fs2, calls1, parsed1)
      else .error (.missingIds (missingOf want parsed1))

/-- Main request of `_translate_no_chunk`: one backend subprocess, whose
raw response is written to the `.nochunk.out.tsv` path, verified with
`_parse_tsv_with_echo`, remapped to cue ids and cached. -/
def nochunkMain (B : Backend) (H : PyStr → PyStr → PyStr)
    (cues : List (PyStr × PyStr)) (want : List PyStr) (basePath ioTag : PyStr)
    (model : Option PyStr) (cacheFile : PyStr) (fs : FS) (calls : Nat) :
    Except TErr (FS × Nat × SMap) :=
  let expected := buildExpected H cues
  let outTsv := basePath ++ '.' :: (ioTag ++ sLit ".nochunk.out.tsv")
  let out := B.runSingle calls model outTsv fs
  match out.2 with
  | some e => .error (.backendFail e)
  | none =>
    match alGet outTsv out.1 with
    | none => .error (.unreadableFile outTsv)
    | some v =>
      let parsed := parse_tsv_with_echo (fileLinesVal v) expected
      if parsed.isEmpty then .error (.backendFail .unparseableOut)
      else
        let remapped := remapParsed expected parsed
        nochunkFinish B cues want basePath ioTag model cacheFile remapped
          (alSet out.1 cacheFile (.cacheFmt 2 remapped)) (calls + 1)

/-- `_translate_no_chunk`: probe the resumable cache (non-empty and
format-compatible); a full hit over the requested ids returns the
filtered cache, a partial overlap skips the main request and goes
straight to gap filling, otherwise run the single main request. -/
def translate_no_chunk (B : Backend) (H : PyStr → PyStr → PyStr)
    (cues : List (PyStr × PyStr)) (basePath : PyStr) (model : Option PyStr)
    (ioTag : PyStr) (fs : FS) (calls : Nat) : Except TErr (FS × Nat × SMap) :=
  let cacheFile := basePath ++ '.' :: (ioTag ++ sLit ".nochunk.out.jsonl")
  let want := (cues.map (·.1)).dedup
  let cacheHit : Option SMap :=
    match alGet cacheFile fs with
    | some v =>
      if v.sizePos && isNochunkCompatible v then some (parseJsonlVal v) else none
    | none => none
  match cacheHit with
  | some cached =>
    let cachedIds := cached.map (·.1)
    if want.all (fun i => decide (i ∈ cachedIds)) then
      .ok (fs, calls, cached.filter (fun p => decide (p.1 ∈ want)))
    else if cachedIds.any (fun i => decide (i ∈ want)) then
      nochunkFinish B cues want basePath ioTag model cacheFile
        (cached.filter (fun p => decide (p.1 ∈ want))) fs calls
    else
      nochunkMain B H cues want basePath ioTag model cacheFile fs calls
  | none => nochunkMain B H cues want basePath ioTag model cacheFile fs calls

/-- `translate_es`: dispatch on `no_chunk` (default: no-chunk for the
`claude` backend, chunked otherwise). -/
def translate_es (B : Backend) (H : PyStr → PyStr → PyStr)
    (cues : List (PyStr × PyStr)) (basePath : PyStr) (chunkSize : Nat)
    (model fbModel : Option PyStr) (resume : Bool) (ioTag : PyStr)
    (maxWorkers : Nat) (backend : PyStr) (noChunk : Option Bool)
    (fs : FS) (calls : Nat) : Except TErr (FS × Nat × SMap) :=
  let nc := noChunk.getD (decide (backend = sLit "claude"))
  if nc then translate_no_chunk B H cues basePath model ioTag fs calls
  else
    translate_es_chunked B cues basePath chunkSize model fbModel resume ioTag
      maxWorkers fs calls

theorem missingOf_isEmpty {want : List PyStr} {m : SMap}
    (h : (missingOf want m).isEmpty = true) :
    ∀ i ∈ want, (alGet i m).isSome := by
  intro i hi
  have hnil : missingOf want m = [] := List.isEmpty_iff.mp h
  by_contra hn
  have : i ∈ missingOf want m := by
    unfold missingOf
    refine List.mem_filter.mpr ⟨hi, ?_⟩
    simp [Option.isNone_iff_eq_none]
    cases hv : alGet i m with
    | none => rfl
    | some v => exact absurd (by simp [hv]) hn
  rw [hnil] at this
  exact absurd this (List.not_mem_nil i)

theorem alGet_isSome_iff_mem_keys (m : SMap) (id : PyStr) :
    (alGet id m).isSome ↔ id ∈ m.map (·.1) := by
  induction m with
  | nil => simp [alGet]
  | cons p rest ih =>
    obtain ⟨pk, pv⟩ := p
    by_cases hk : id = pk
    · simp [alGet, hk]
    · simp [alGet, hk, ih]

theorem alGet_filter_mem {m : SMap} {want : List PyStr} {id : PyStr}
    (hid : id ∈ want) :
    alGet id (m.filter (fun p => decide (p.1 ∈ want))) = alGet id m := by
  induction m with
  | nil => rfl
  | cons p rest ih =>
    obtain ⟨pk, pv⟩ := p
    by_cases hk : id = pk
    · subst hk
      rw [List.filter_cons, if_pos (by simpa using hid)]
      simp [alGet]
    · by_cases hpw : pk ∈ want
      · rw [List.filter_cons, if_pos (by simpa using hpw)]
        simp only [alGet, if_neg hk]
        exact ih
      · rw [List.filter_cons, if_neg (by simpa using hpw)]
        simp only [alGet, if_neg hk]
        exact ih

theorem translate_es_chunked_complete (B : Backend) (cues : List (PyStr × PyStr))
    (basePath : PyStr) (chunkSize : Nat) (model fbModel : Option PyStr)
    (resume : Bool) (ioTag : PyStr) (maxWorkers : Nat) (fs : FS) (calls : Nat)
    (fs1 : FS) (calls1 : Nat) (m : SMap)
    (h : translate_es_chunked B cues basePath chunkSize model fbModel resume
      ioTag maxWorkers fs calls = .ok (fs1, calls1, m)) :
    ∀ id ∈ cues.map Prod.fst, (alGet id m).isSome := by
  intro id hid
  have hwant : id ∈ (cues.map (·.1)).dedup := List.mem_dedup.mpr hid
  unfold translate_es_chunked at h
  simp only [] at h
  repeat' split at h
  all_goals
    first
    | exact Except.noConfusion h
    | (simp only [Except.ok.injEq, Prod.mk.injEq] at h
       obtain ⟨-, -, rfl⟩ := h
       exact missingOf_isEmpty (by assumption) id hwant)

theorem nochunkFinish_complete (B : Backend) (cues : List (PyStr × PyStr))
    (want : List PyStr) (basePath ioTag : PyStr) (model : Option PyStr)
    (cacheFile : PyStr) (parsed : SMap) (fs : FS) (calls : Nat)
    (fs1 : FS) (calls1 : Nat) (m : SMap)
    (h : nochunkFinish B cues want basePath ioTag model cacheFile parsed fs calls
      = .ok (fs1, calls1, m)) :
    ∀ id ∈ want, (alGet id m).isSome := by
  intro id hid
  unfold nochunkFinish at h
  simp only [] at h
  repeat' split at h
  all_goals
    first
    | exact Except.noConfusion h
    | (simp only [Except.ok.injEq, Prod.mk.injEq] at h
       obtain ⟨-, -, rfl⟩ := h
       exact missingOf_isEmpty (by assumption) id hid)

theorem nochunkMain_complete (B : Backend) (H : PyStr → PyStr → PyStr)
    (cues : List (PyStr × PyStr)) (want : List PyStr) (basePath ioTag : PyStr)
    (model : Option PyStr) (cacheFile : PyStr) (fs : FS) (calls : Nat)
    (fs1 : FS) (calls1 : Nat) (m : SMap)
    (h : nochunkMain B H cues want basePath ioTag model cacheFile fs calls
      = .ok (fs1, calls1, m)) :
    ∀ id ∈ want, (alGet id m).isSome := by
  intro id hid
  unfold nochunkMain at h
  simp only [] at h
  repeat' split at h
  all_goals
    first
    | exact Except.noConfusion h
    | exact nochunkFinish_complete _ _ _ _ _ _ _ _ _ _ _ _ _ h id hid

theorem translate_no_chunk_complete (B : Backend) (H : PyStr → PyStr → PyStr)
    (cues : List (PyStr × PyStr)) (basePath : PyStr) (model : Option PyStr)
    (ioTag : PyStr) (fs : FS) (calls : Nat)
    (fs1 : FS) (calls1 : Nat) (m : SMap)
    (h : translate_no_chunk B H cues basePath model ioTag fs calls
      = .ok (fs1, calls1, m)) :
    ∀ id ∈ cues.map Prod.fst, (alGet id m).isSome := by
  intro id hid
  have hwant : id ∈ (cues.map (·.1)).dedup := List.mem_dedup.mpr hid
  unfold translate_no_chunk at h
  simp only [] at h
  split at h
  case h_1 cached hcached =>
    split at h
    case isTrue hall =>
      simp only [Except.ok.injEq, Prod.mk.injEq] at h
      obtain ⟨-, -, rfl⟩ := h
      rw [alGet_filter_mem hwant, alGet_isSome_iff_mem_keys]
      simpa using List.all_eq_true.mp hall id hwant
    case isFalse =>
      split at h
      · exact nochunkFinish_complete _ _ _ _ _ _ _ _ _ _ _ _ _ h id hwant
      · exact nochunkMain_complete _ _ _ _ _ _ _ _ _ _ _ _ _ h id hwant
  case h_2 => exact nochunkMain_complete _ _ _ _ _ _ _ _ _ _ _ _ _ h id hwant

/-- C1: in both execution modes (no-chunk and chunked) and for every
backend oracle, hash oracle and starting state, a `translate_es` call
that returns a map (rather than raising) returns one whose key set
contains every requested cue id — never a silent partial result. -/
theorem translate_es_complete_or_error (B : Backend) (H : PyStr → PyStr → PyStr)
    (cues : List (PyStr × PyStr)) (basePath : PyStr) (chunkSize : Nat)
    (model fbModel : Option PyStr) (resume : Bool) (ioTag : PyStr)
    (maxWorkers : Nat) (backend : PyStr) (noChunk : Option Bool)
    (fs : FS) (calls : Nat) (fs1 : FS) (calls1 : Nat) (m : SMap)
    (h : translate_es B H cues basePath chunkSize model fbModel resume ioTag
      maxWorkers backend noChunk fs calls = .ok (fs1, calls1, m)) :
    ∀ id ∈ cues.map Prod.fst, (alGet id m).isSome := by
  unfold translate_es at h
  simp only [] at h
  split at h
  · exact translate_no_chunk_complete _ _ _ _ _ _ _ _ _ _ _ h
  · exact translate_es_chunked_complete _ _ _ _ _ _ _ _ _ _ _ _ _ _ h

/-- A backend oracle that always fails; used by witnesses for runs that
must never reach the backend. -/
def idleBackend : Backend where
  runChunk := fun _ _ _ fs => (fs, some .exitFail)
  runSingle := fun _ _ _ fs => (fs, some .exitFail)

/-- Complete chunk-output cache for one cue under chunk size 1. -/
def fsChunkCache : FS :=
  [((mkChunkPaths (sLit "/b") 1 (sLit "ru") 1).out_jsonl,
    .jsonl [(sLit "1", sLit "hi")])]

/-- Witness for C1: a concrete chunked run that returns, and whose
result contains the single requested id. -/
theorem translate_es_complete_or_error_witness :
    (alGet (sLit "1") [(sLit "1", sLit "hi")]).isSome = true :=
  translate_es_complete_or_error idleBackend (fun a _ => a)
    [(sLit "1", sLit "hola")] (sLit "/b") 1 none none true (sLit "ru") 1
    (sLit "codex") none fsChunkCache 0 fsChunkCache 0 [(sLit "1", sLit "hi")]
    (by rfl) (sLit "1") (by decide)

/-- C5: idempotence on a complete cache, without backend invocation.
Chunked mode with resume: when every chunk's output file exists and is
non-empty and the merged cache covers every requested id, the call
returns the merged cache map with the file system and the backend
invocation counter unchanged (so the subprocess oracle is never
consulted), hence a repeated call returns the identical map.  No-chunk
mode: when the cache file exists, is non-empty, is format-compatible and
covers every requested id, the call returns the cache filtered to the
requested ids, again with file system and invocation counter
unchanged. -/
theorem translate_es_idempotent_complete_cache :
    (∀ (B : Backend) (H : PyStr → PyStr → PyStr) (cues : List (PyStr × PyStr))
      (basePath : PyStr) (chunkSize : Nat) (model fbModel : Option PyStr)
      (ioTag : PyStr) (maxWorkers : Nat) (backend : PyStr) (fs : FS) (calls : Nat)
      (chunks : List CodexChunkPaths) (m : SMap),
      chunk_cues cues chunkSize basePath ioTag = .ok chunks →
      (∀ ch ∈ chunks, (alGet ch.out_jsonl fs).elim false FileVal.sizePos = true) →
      mergeChunkOuts fs chunks [] = .ok m →
      (missingOf (cues.map (·.1)).dedup m).isEmpty = true →
      translate_es B H cues basePath chunkSize model fbModel true ioTag
        maxWorkers backend (some false) fs calls = .ok (fs, calls, m)) ∧
    (∀ (B : Backend) (H : PyStr → PyStr → PyStr) (cues : List (PyStr × PyStr))
      (basePath : PyStr) (chunkSize : Nat) (model fbModel : Option PyStr)
      (ioTag : PyStr) (maxWorkers : Nat) (backend : PyStr) (fs : FS) (calls : Nat)
      (v : FileVal),
      alGet (basePath ++ '.' :: (ioTag ++ sLit ".nochunk.out.jsonl")) fs = some v →
      v.sizePos = true →
      isNochunkCompatible v = true →
      ((cues.map (·.1)).dedup).all
        (fun i => decide (i ∈ (parseJsonlVal v).map (·.1))) = true →
      translate_es B H cues basePath chunkSize model fbModel true ioTag maxWorkers
        backend (some true) fs calls
        = .ok (fs, calls, (parseJsonlVal v).filter
            (fun p => decide (p.1 ∈ (cues.map (·.1)).dedup)))) := by
  constructor
  · intro B H cues basePath chunkSize model fbModel ioTag maxWorkers backend fs
      calls chunks m h1 h2 h3 h4
    show translate_es_chunked B cues basePath chunkSize model fbModel true ioTag
      maxWorkers fs calls = _
    have hpend : chunks.filter (fun ch =>
        !(true && (alGet ch.out_jsonl fs).elim false FileVal.sizePos)) = [] := by
      rw [List.filter_eq_nil_iff]
      intro ch hch
      simp [h2 ch hch]
    have hrun : run_codex_chunks B [] model fbModel maxWorkers fs calls
        = (.ok fs calls, []) := rfl
    unfold translate_es_chunked
    simp only [h1]
    rw [hpend]
    simp only [hrun, h3, h4, if_true]
  · intro B H cues basePath chunkSize model fbModel ioTag maxWorkers backend fs
      calls v h1 h2 h3 h4
    show translate_no_chunk B H cues basePath model ioTag fs calls = _
    unfold translate_no_chunk
    simp only [h1, h2, h3, Bool.and_self, if_true, h4]

/-- Complete no-chunk cache file for one cue. -/
def fsNochunkCache : FS :=
  [(sLit "/nb" ++ '.' :: (sLit "ru" ++ sLit ".nochunk.out.jsonl"),
    .cacheFmt 2 [(sLit "1", sLit "hi")])]

/-- Witness for C5: two concrete complete-cache runs (chunked and
no-chunk) that return the cached map with state and invocation counter
untouched. -/
theorem translate_es_idempotent_complete_cache_witness :
    translate_es idleBackend (fun a _ => a) [(sLit "1", sLit "hola")] (sLit "/b")
      1 none none true (sLit "ru") 1 (sLit "codex") (some false) fsChunkCache 0
      = .ok (fsChunkCache, 0, [(sLit "1", sLit "hi")]) ∧
    translate_es idleBackend (fun a _ => a) [(sLit "1", sLit "hola")] (sLit "/nb")
      1 none none true (sLit "ru") 1 (sLit "claude") (some true) fsNochunkCache 3
      = .ok (fsNochunkCache, 3, [(sLit "1", sLit "hi")]) :=
  ⟨translate_es_idempotent_complete_cache.1 idleBackend (fun a _ => a)
      [(sLit "1", sLit "hola")] (sLit "/b") 1 none none (sLit "ru") 1
      (sLit "codex") fsChunkCache 0 [mkChunkPaths (sLit "/b") 1 (sLit "ru") 1]
      [(sLit "1", sLit "hi")] rfl (by decide) rfl (by decide),
   translate_es_idempotent_complete_cache.2 idleBackend (fun a _ => a)
      [(sLit "1", sLit "hola")] (sLit "/nb") 1 none none (sLit "ru") 1
      (sLit "claude") fsNochunkCache 3 (.cacheFmt 2 [(sLit "1", sLit "hi")])
      rfl (by decide) (by decide) (by decide)⟩

/-- Follows the spec's words for C3: a response row (one line of the
response file) yields an accepted entry for correlation id `mid` iff the
line is non-blank, splits into at least three tab-separated fields, its
first field unescapes and strips to `mid`, `mid` matches a pending
request in `expected`, and its last field unescapes and strips to the
precomputed echo stored for that request. -/
def specRowAccepted (expected : List (PyStr × PyStr × PyStr)) (line : PyStr)
    (mid : PyStr) : Prop :=
  pyStrip (rstripCR line) ≠ [] ∧
  3 ≤ (splitOnChar '\t' (rstripCR line)).length ∧
  pyStrip (tsv_unescape ((splitOnChar '\t' (rstripCR line)).headD [])) = mid ∧
  ∃ cueId echo, alGet mid expected = some (cueId, echo) ∧
    pyStrip (tsv_unescape ((splitOnChar '\t' (rstripCR line)).getLastD [])) = echo

theorem tsvRowStep_isSome (expected : List (PyStr × PyStr × PyStr)) (out : SMap)
    (line mid : PyStr) :
    (alGet mid (tsvRowStep expected out line)).isSome
      ↔ (alGet mid out).isSome ∨ specRowAccepted expected line mid := by
  unfold tsvRowStep specRowAccepted
  simp only []
  by_cases hblank : pyStrip (rstripCR line) = []
  · rw [if_pos hblank]
    simp [hblank]
  · rw [if_neg hblank]
    by_cases hlen : (splitOnChar '\t' (rstripCR line)).length < 3
    · rw [if_pos hlen]
      have : ¬3 ≤ (splitOnChar '\t' (rstripCR line)).length := by omega
      simp [this]
    · rw [if_neg hlen]
      cases hexp : alGet
          (pyStrip (tsv_unescape ((splitOnChar '\t' (rstripCR line)).headD [])))
          expected with
      | none =>
        constructor
        · intro h; exact Or.inl h
        · rintro (h | ⟨-, -, hmid, cueId, echo, hlook, -⟩)
          · exact h
          · rw [hmid] at hexp
            rw [hexp] at hlook
            exact Option.noConfusion hlook
      | some q =>
        obtain ⟨cueId0, echo0⟩ := q
        dsimp only
        by_cases hech :
            pyStrip (tsv_unescape ((splitOnChar '\t' (rstripCR line)).getLastD []))
              = echo0
        · rw [if_pos hech]
          rw [alGet_dictSet_isSome]
          constructor
          · intro h
            rcases Bool.or_eq_true_iff.mp h with h2 | h2
            · exact Or.inl h2
            · have hmid : mid
                  = pyStrip (tsv_unescape ((splitOnChar '\t' (rstripCR line)).headD [])) :=
                of_decide_eq_true h2
              exact Or.inr ⟨hblank, by omega, hmid.symm, cueId0, echo0,
                by rw [hmid]; exact hexp, hech⟩
          · rintro (h | ⟨-, -, hmid, cueId, echo, hlook, hech2⟩)
            · exact Bool.or_eq_true_iff.mpr (Or.inl h)
            · exact Bool.or_eq_true_iff.mpr (Or.inr (decide_eq_true hmid.symm))
        · rw [if_neg hech]
          constructor
          · intro h; exact Or.inl h
          · rintro (h | ⟨-, -, hmid, cueId, echo, hlook, hech2⟩)
            · exact h
            · exfalso
              rw [hmid] at hexp
              rw [hexp] at hlook
              have h4 : echo0 = echo := congrArg Prod.snd (Option.some.inj hlook)
              exact hech (hech2.trans h4.symm)

theorem parse_tsv_fold_isSome (expected : List (PyStr × PyStr × PyStr))
    (mid : PyStr) :
    ∀ (lines : List PyStr) (acc : SMap),
      (alGet mid (lines.foldl (tsvRowStep expected) acc)).isSome
        ↔ (alGet mid acc).isSome ∨ ∃ line ∈ lines, specRowAccepted expected line mid := by
  intro lines
  induction lines with
  | nil => intro acc; simp
  | cons l ls ih =>
    intro acc
    rw [List.foldl_cons, ih, tsvRowStep_isSome]
    constructor
    · rintro ((h | h) | h)
      · exact Or.inl h
      · exact Or.inr ⟨l, by simp, h⟩
      · obtain ⟨x, hx, hs⟩ := h
        exact Or.inr ⟨x, by simp [hx], hs⟩
    · rintro (h | ⟨x, hx, hs⟩)
      · exact Or.inl (Or.inl h)
      · rcases List.mem_cons.mp hx with rfl | hx2
        · exact Or.inl (Or.inr hs)
        · exact Or.inr ⟨x, hx2, hs⟩

/-- C3: a correlation id is present in the verifier's output iff some
line of the response file is accepted for it — non-blank, at least three
tab-separated fields, first column matching that pending correlation id
and last column equal to the precomputed echo of that request; every
other row is dropped, so its id stays missing. -/
theorem parse_tsv_with_echo_accepts_iff (lines : List PyStr)
    (expected : List (PyStr × PyStr × PyStr)) (mid : PyStr) :
    (alGet mid (parse_tsv_with_echo lines expected)).isSome
      ↔ ∃ line ∈ lines, specRowAccepted expected line mid := by
  unfold parse_tsv_with_echo
  rw [parse_tsv_fold_isSome]
  simp [alGet]

/-! ## workflows/download.py: reset-layer expansion -/

/-- One body iteration of the `while changed:` loop of
`_expand_reset_layers`: each rule sees the additions made by the rules
before it in the same iteration. -/
def expandStep (s : Finset String) : Finset String :=
  let s1 := if "video" ∈ s then
    s ∪ {"subs-es", "subs-en", "subs-ru", "subs-refs", "mkv"} else s
  let s2 := if "subs-es" ∈ s1 then
    s1 ∪ {"subs-en", "subs-ru", "subs-refs", "mkv"} else s1
  let s3 := if "subs-en" ∈ s2 then insert "mkv" s2 else s2
  let s4 := if "subs-ru" ∈ s3 then insert "mkv" s3 else s3
  if "subs-refs" ∈ s4 then insert "mkv" s4 else s4

/-- The `while changed:` loop: iterate `expandStep` until it makes no
change.  The loop is bounded (each change adds elements from a fixed
six-element pool), so fuel 7 is more than enough;
`expand_reset_layers_eq_step` shows the fixpoint is reached after one
step, making the fuel choice irrelevant. -/
def expandLoop : Nat → Finset String → Finset String
  | 0, s => s
  | f + 1, s =>
    let s2 := expandStep s
    if s2 = s then s else expandLoop f s2

/-- `_expand_reset_layers`. -/
def expand_reset_layers (s : Finset String) : Finset String := expandLoop 7 s

theorem mem_expandStep (x : String) (s : Finset String) :
    x ∈ expandStep s ↔ x ∈ s
      ∨ ("video" ∈ s ∧
          x ∈ ({"subs-es", "subs-en", "subs-ru", "subs-refs", "mkv"} : Finset String))
      ∨ (("subs-es" ∈ s ∨ "video" ∈ s) ∧
          x ∈ ({"subs-en", "subs-ru", "subs-refs", "mkv"} : Finset String))
      ∨ (("subs-en" ∈ s ∨ "video" ∈ s ∨ "subs-es" ∈ s) ∧ x = "mkv")
      ∨ (("subs-ru" ∈ s ∨ "video" ∈ s ∨ "subs-es" ∈ s) ∧ x = "mkv")
      ∨ (("subs-refs" ∈ s ∨ "video" ∈ s ∨ "subs-es" ∈ s) ∧ x = "mkv") := by
  unfold expandStep
  by_cases hv : "video" ∈ s <;> by_cases hes : "subs-es" ∈ s <;>
    by_cases hen : "subs-en" ∈ s <;> by_cases hru : "subs-ru" ∈ s <;>
    by_cases hrf : "subs-refs" ∈ s <;>
    simp [hv, hes, hen, hru, hrf, Finset.mem_union, Finset.mem_insert] <;>
    aesop

theorem expandStep_superset (s : Finset String) : s ⊆ expandStep s := by
  intro x hx
  rw [mem_expandStep]
  exact Or.inl hx

theorem video_mem_expandStep (s : Finset String) :
    "video" ∈ expandStep s ↔ "video" ∈ s := by
  rw [mem_expandStep]; simp

theorem subsEs_mem_expandStep (s : Finset String) :
    "subs-es" ∈ expandStep s ↔ "subs-es" ∈ s ∨ "video" ∈ s := by
  rw [mem_expandStep]; aesop

theorem subsEn_mem_expandStep (s : Finset String) :
    "subs-en" ∈ expandStep s
      ↔ "subs-en" ∈ s ∨ "video" ∈ s ∨ "subs-es" ∈ s := by
  rw [mem_expandStep]; aesop

theorem subsRu_mem_expandStep (s : Finset String) :
    "subs-ru" ∈ expandStep s
      ↔ "subs-ru" ∈ s ∨ "video" ∈ s ∨ "subs-es" ∈ s := by
  rw [mem_expandStep]; aesop

theorem subsRefs_mem_expandStep (s : Finset String) :
    "subs-refs" ∈ expandStep s
      ↔ "subs-refs" ∈ s ∨ "video" ∈ s ∨ "subs-es" ∈ s := by
  rw [mem_expandStep]; aesop

theorem expandStep_video_adds (s : Finset String) (hv : "video" ∈ s) :
    ({"subs-es", "subs-en", "subs-ru", "subs-refs", "mkv"} : Finset String)
      ⊆ expandStep s := by
  intro x hx
  rw [mem_expandStep]
  exact Or.inr (Or.inl ⟨hv, hx⟩)

theorem expandStep_subsEs_adds (s : Finset String) (h : "subs-es" ∈ s) :
    ({"subs-en", "subs-ru", "subs-refs", "mkv"} : Finset String)
      ⊆ expandStep s := by
  intro x hx
  rw [mem_expandStep]
  exact Or.inr (Or.inr (Or.inl ⟨Or.inl h, hx⟩))

theorem expandStep_mkv_added (s : Finset String)
    (h : "subs-es" ∈ s ∨ "subs-en" ∈ s ∨ "subs-ru" ∈ s ∨ "subs-refs" ∈ s) :
    "mkv" ∈ expandStep s := by
  rw [mem_expandStep]
  rcases h with h | h | h | h
  · exact Or.inr (Or.inr (Or.inr (Or.inl ⟨Or.inr (Or.inr h), rfl⟩)))
  · exact Or.inr (Or.inr (Or.inr (Or.inl ⟨Or.inl h, rfl⟩)))
  · exact Or.inr (Or.inr (Or.inr (Or.inr (Or.inl ⟨Or.inl h, rfl⟩))))
  · exact Or.inr (Or.inr (Or.inr (Or.inr (Or.inr ⟨Or.inl h, rfl⟩))))

theorem mkv_mem_layers :
    "mkv" ∈ ({"subs-es", "subs-en", "subs-ru", "subs-refs", "mkv"} : Finset String)
      ∧ "mkv" ∈ ({"subs-en", "subs-ru", "subs-refs", "mkv"} : Finset String) := by
  constructor <;> simp

set_option maxHeartbeats 2000000 in
set_option linter.constructorNameAsVariable false in
theorem expandStep_idem (s : Finset String) :
    expandStep (expandStep s) = expandStep s := by
  apply Finset.Subset.antisymm
  · intro x hx
    rw [mem_expandStep] at hx
    rcases hx with hx | ⟨hv, hx⟩ | ⟨hes, hx⟩ | ⟨ht, rfl⟩ | ⟨ht, rfl⟩ | ⟨ht, rfl⟩
    · exact hx
    · exact expandStep_video_adds s ((video_mem_expandStep s).mp hv) hx
    · rcases hes with hes | hv
      · rcases (subsEs_mem_expandStep s).mp hes with h | h
        · exact expandStep_subsEs_adds s h hx
        · exact expandStep_video_adds s h (Finset.mem_insert_of_mem hx)
      · exact expandStep_video_adds s ((video_mem_expandStep s).mp hv)
          (Finset.mem_insert_of_mem hx)
    · rcases ht with h | h | h
      · rcases (subsEn_mem_expandStep s).mp h with h2 | h2 | h2
        · exact expandStep_mkv_added s (Or.inr (Or.inl h2))
        · exact expandStep_video_adds s h2 mkv_mem_layers.1
        · exact expandStep_mkv_added s (Or.inl h2)
      · exact expandStep_video_adds s ((video_mem_expandStep s).mp h)
          mkv_mem_layers.1
      · rcases (subsEs_mem_expandStep s).mp h with h2 | h2
        · exact expandStep_mkv_added s (Or.inl h2)
        · exact expandStep_video_adds s h2 mkv_mem_layers.1
    · rcases ht with h | h | h
      · rcases (subsRu_mem_expandStep s).mp h with h2 | h2 | h2
        · exact expandStep_mkv_added s (Or.inr (Or.inr (Or.inl h2)))
        · exact expandStep_video_adds s h2 mkv_mem_layers.1
        · exact expandStep_mkv_added s (Or.inl h2)
      · exact expandStep_video_adds s ((video_mem_expandStep s).mp h)
          mkv_mem_layers.1
      · rcases (subsEs_mem_expandStep s).mp h with h2 | h2
        · exact expandStep_mkv_added s (Or.inl h2)
        · exact expandStep_video_adds s h2 mkv_mem_layers.1
    · rcases ht with h | h | h
      · rcases (subsRefs_mem_expandStep s).mp h with h2 | h2 | h2
        · exact expandStep_mkv_added s (Or.inr (Or.inr (Or.inr h2)))
        · exact expandStep_video_adds s h2 mkv_mem_layers.1
        · exact expandStep_mkv_added s (Or.inl h2)
      · exact expandStep_video_adds s ((video_mem_expandStep s).mp h)
          mkv_mem_layers.1
      · rcases (subsEs_mem_expandStep s).mp h with h2 | h2
        · exact expandStep_mkv_added s (Or.inl h2)
        · exact expandStep_video_adds s h2 mkv_mem_layers.1
  · exact expandStep_superset (expandStep s)

theorem expandLoop_succ (f : Nat) (s : Finset String) :
    expandLoop (f + 1) s
      = if expandStep s = s then s else expandLoop f (expandStep s) := rfl

/-- The while loop stabilizes after one body iteration: rules later in
the body already see what earlier rules added, so one pass closes the
set and the second pass detects no change. -/
theorem expand_reset_layers_eq_step (s : Finset String) :
    expand_reset_layers s = expandStep s := by
  show expandLoop (6 + 1) s = _
  rw [expandLoop_succ]
  by_cases h : expandStep s = s
  · rw [if_pos h, h]
  · rw [if_neg h]
    show expandLoop (5 + 1) (expandStep s) = _
    rw [expandLoop_succ, if_pos (expandStep_idem s)]

set_option maxHeartbeats 2000000 in
/-- C9: `_expand_reset_layers` returns a superset of the requested
layers, closed under the derivation rules; `video` pulls in all
subtitle layers and `mkv`, `subs-es` pulls in the remaining subtitle
layers and `mkv`, every subtitle layer pulls in `mkv`, and the expansion
is idempotent. -/
theorem expand_reset_layers_closure (s : Finset String) :
    s ⊆ expand_reset_layers s ∧
    ("video" ∈ s →
      ({"subs-es", "subs-en", "subs-ru", "subs-refs", "mkv"} : Finset String)
        ⊆ expand_reset_layers s) ∧
    ("subs-es" ∈ s →
      ({"subs-en", "subs-ru", "subs-refs", "mkv"} : Finset String)
        ⊆ expand_reset_layers s) ∧
    (("subs-es" ∈ s ∨ "subs-en" ∈ s ∨ "subs-ru" ∈ s ∨ "subs-refs" ∈ s) →
      "mkv" ∈ expand_reset_layers s) ∧
    ("video" ∈ expand_reset_layers s →
      ({"subs-es", "subs-en", "subs-ru", "subs-refs", "mkv"} : Finset String)
        ⊆ expand_reset_layers s) ∧
    ("subs-es" ∈ expand_reset_layers s →
      ({"subs-en", "subs-ru", "subs-refs", "mkv"} : Finset String)
        ⊆ expand_reset_layers s) ∧
    (("subs-es" ∈ expand_reset_layers s ∨ "subs-en" ∈ expand_reset_layers s
        ∨ "subs-ru" ∈ expand_reset_layers s ∨ "subs-refs" ∈ expand_reset_layers s) →
      "mkv" ∈ expand_reset_layers s) ∧
    expand_reset_layers (expand_reset_layers s) = expand_reset_layers s := by
  rw [expand_reset_layers_eq_step]
  refine ⟨expandStep_superset s, expandStep_video_adds s, expandStep_subsEs_adds s,
    expandStep_mkv_added s, ?_, ?_, ?_, ?_⟩
  · intro hv
    rw [video_mem_expandStep] at hv
    intro x hx
    exact expandStep_video_adds s hv hx
  · intro hes
    rcases (subsEs_mem_expandStep s).mp hes with h | h
    · exact expandStep_subsEs_adds s h
    · intro x hx
      exact expandStep_video_adds s h (Finset.mem_insert_of_mem hx)
  · intro ht
    have hmk : "subs-es" ∈ s ∨ "subs-en" ∈ s ∨ "subs-ru" ∈ s ∨ "subs-refs" ∈ s
        ∨ "video" ∈ s := by
      rcases ht with h | h | h | h
      · rcases (subsEs_mem_expandStep s).mp h with h2 | h2
        · exact Or.inl h2
        · exact Or.inr (Or.inr (Or.inr (Or.inr h2)))
      · rcases (subsEn_mem_expandStep s).mp h with h2 | h2 | h2
        · exact Or.inr (Or.inl h2)
        · exact Or.inr (Or.inr (Or.inr (Or.inr h2)))
        · exact Or.inl h2
      · rcases (subsRu_mem_expandStep s).mp h with h2 | h2 | h2
        · exact Or.inr (Or.inr (Or.inl h2))
        · exact Or.inr (Or.inr (Or.inr (Or.inr h2)))
        · exact Or.inl h2
      · rcases (subsRefs_mem_expandStep s).mp h with h2 | h2 | h2
        · exact Or.inr (Or.inr (Or.inr (Or.inl h2)))
        · exact Or.inr (Or.inr (Or.inr (Or.inr h2)))
        · exact Or.inl h2
    rcases hmk with h | h | h | h | h
    · exact expandStep_mkv_added s (Or.inl h)
    · exact expandStep_mkv_added s (Or.inr (Or.inl h))
    · exact expandStep_mkv_added s (Or.inr (Or.inr (Or.inl h)))
    · exact expandStep_mkv_added s (Or.inr (Or.inr (Or.inr h)))
    · exact expandStep_video_adds s h mkv_mem_layers.1
  · rw [expand_reset_layers_eq_step]
    exact expandStep_idem s

set_option maxHeartbeats 2000000 in
/-- Witness for C9 at the concrete request `{video}`. -/
theorem expand_reset_layers_closure_witness :
    ({"subs-es", "subs-en", "subs-ru", "subs-refs", "mkv"} : Finset String)
      ⊆ expand_reset_layers {"video"} :=
  (expand_reset_layers_closure {"video"}).2.1 (by simp)

/-! ## workflows/download.py: season scheduler and exit status -/

/-- `is_season = "S" not in selector.upper()`. -/
def is_season (selector : PyStr) : Bool :=
  !((selector.map Char.toUpper).contains 'S')

/-- `_process_one` at the failure boundary: the body (everything inside
its `try`) is an oracle from the asset to `none` (success) or the raised
exception; in season mode the exception is caught and returned as a
recorded failure message (modelled by the asset itself), otherwise it is
re-raised. -/
def process_one (isSeason : Bool) (body : α → Option ε) (a : α) :
    Except ε (Option α) :=
  match body a with
  | none => .ok none
  | some e => if isSeason then .ok (some a) else .error e

/-- The episode loop of `download_selector` and its exit status:
episodes are processed in order, recorded failures are collected, and
the exit code is `1 if failures else 0`.  The thread pool of the
parallel branch only changes the completion order of the recorded
failures, never the exit status, and is modelled by the sequential
fold. -/
def download_selector_run (selector : PyStr) (body : α → Option ε)
    (assets : List α) : Except ε Nat :=
  let rec go : List α → List α → Except ε Nat
    | [], fails => .ok (if fails.isEmpty then 0 else 1)
    | a :: rest, fails =>
      match process_one (is_season selector) body a with
      | .error e => .error e
      | .ok none => go rest fails
      | .ok (some msg) => go rest (fails ++ [msg])
  go assets []

theorem download_selector_go_season {α ε : Type} (body : α → Option ε)
    (selector : PyStr) (hs : is_season selector = true) :
    ∀ (assets fails : List α),
      download_selector_run.go selector body assets fails
        = .ok (if fails.isEmpty && assets.all (fun a => (body a).isNone)
            then 0 else 1) := by
  intro assets
  induction assets with
  | nil =>
    intro fails
    simp only [download_selector_run.go]
    by_cases h : fails.isEmpty <;> simp [h]
  | cons a rest ih =>
    intro fails
    simp only [download_selector_run.go]
    cases hb : body a with
    | none =>
      have hp : process_one (is_season selector) body a = .ok none := by
        unfold process_one; rw [hb]
      simp only [hp]
      rw [ih fails]
      simp only [List.all_cons, hb, Option.isNone_none, Bool.true_and]
    | some e =>
      have hp : process_one (is_season selector) body a = .ok (some a) := by
        unfold process_one; rw [hb]; simp [hs]
      simp only [hp]
      rw [ih (fails ++ [a])]
      simp [hb]

/-- C8: failure isolation and exit status.  In a season (multi-episode)
run — a selector without an episode marker `S` — every exception raised
by an episode body is caught and recorded, sibling episodes still run,
and the exit code is 0 iff no episode recorded a failure; in a
single-episode run (selector with `S`) the body's exception propagates
out of `download_selector`. -/
theorem download_selector_exit_status {α ε : Type} (selector : PyStr)
    (body : α → Option ε) (assets : List α) (a0 : α) (e0 : ε) :
    (is_season selector = true →
      download_selector_run selector body assets
        = .ok (if assets.all (fun a => (body a).isNone) then 0 else 1) ∧
      (download_selector_run selector body assets = .ok 0
        ↔ ∀ a ∈ assets, body a = none)) ∧
    (is_season selector = false → body a0 = some e0 →
      download_selector_run selector body [a0] = .error e0) := by
  constructor
  · intro hs
    have hrun : download_selector_run selector body assets
        = .ok (if assets.all (fun a => (body a).isNone) then 0 else 1) := by
      unfold download_selector_run
      rw [download_selector_go_season body selector hs assets []]
      simp only [List.isEmpty_nil, Bool.true_and]
    refine ⟨hrun, ?_⟩
    rw [hrun]
    constructor
    · intro h
      by_cases hall : assets.all (fun a => (body a).isNone)
      · intro a ha
        have := List.all_eq_true.mp hall a ha
        simpa [Option.isNone_iff_eq_none] using this
      · rw [if_neg hall] at h
        exact absurd (Except.ok.inj h) (by norm_num)
    · intro h
      rw [if_pos (List.all_eq_true.mpr (fun a ha => by simp [h a ha]))]
  · intro hs hb
    unfold download_selector_run
    simp only [download_selector_run.go, process_one, hb, hs]
    rfl

/-- Witness for C8: a concrete season run with one failing episode exits
1, and a concrete single-episode run propagates the exception. -/
theorem download_selector_exit_status_witness :
    download_selector_run (sLit "T7")
      (fun n : Nat => if n = 1 then some 9 else none) [0, 1, 2] = .ok 1 ∧
    download_selector_run (sLit "T7S5")
      (fun n : Nat => if n = 1 then some 9 else none) [1] = .error 9 := by
  constructor
  · have h := (download_selector_exit_status (sLit "T7")
      (fun n : Nat => if n = 1 then some 9 else none) [0, 1, 2] 0 0).1 (by decide)
    rw [h.1]
    rfl
  · exact (download_selector_exit_status (sLit "T7S5")
      (fun n : Nat => if n = 1 then some 9 else none) [1] 1 9).2
      (by decide) (by decide)

/-! ## ffmpeg.py / workflows/download.py: atomic promotion of artifacts -/

/-- File-system effects a step can perform on durable paths (directory
creation is irrelevant to file existence at the final paths and is
elided). -/
inductive FsOp where
  | write (p : PyStr)
  | rename (src dst : PyStr)
deriving DecidableEq

/-- Existing paths after executing a prefix of operations: `write`
creates (or extends) its path, `rename` removes the source and creates
the destination. -/
def applyOps : List FsOp → List PyStr → List PyStr
  | [], paths => paths
  | .write p :: rest, paths => applyOps rest (p :: paths)
  | .rename src dst :: rest, paths =>
    applyOps rest (dst :: paths.filter (fun q => decide (q ≠ src)))

def listStartsWith : PyStr → PyStr → Bool
  | [], _ => true
  | _ :: _, [] => false
  | p :: ps, c :: cs => p = c && listStartsWith ps cs

/-- Python `pat in s` (substring containment). -/
def containsSub (pat : PyStr) : PyStr → Bool
  | [] => listStartsWith pat []
  | s@(_ :: rest) => listStartsWith pat s || containsSub pat rest

/-- Outcomes of the external tools used by `download_to_mp4`. -/
structure DlEnv where
  curlOnPath : Bool
  curlOk : Bool
  ffmpegOk : Bool

/-- The durable-path operations of `download_to_mp4`, in program order:
cache hit returns immediately; otherwise everything is written to
`out.partial.mp4` (by curl with resume when the url is a direct `.mp4`
and curl is available, else by ffmpeg) and only a successful tool run is
followed by the rename onto the final path; a failed ffmpeg run raises
before any rename. -/
def download_to_mp4_ops (url outMp4 : PyStr) (outExists : Bool)
    (env : DlEnv) : List FsOp :=
  if outExists then []
  else
    let part := outMp4 ++ sLit ".partial.mp4"
    let ffmpegTail :=
      FsOp.write part :: (if env.ffmpegOk then [FsOp.rename part outMp4] else [])
    if containsSub (sLit ".mp4") url && env.curlOnPath then
      FsOp.write part ::
        (if env.curlOk then [FsOp.rename part outMp4] else ffmpegTail)
    else ffmpegTail

/-- The durable-path operations of the mux stage of `_process_one`:
`mux_mkv` writes the ffmpeg output to `out.mkv.partial.mkv` and only a
successful run reaches `tmp_out.replace(out_mkv)`. -/
def mux_stage_ops (outMkv : PyStr) (muxOk : Bool) : List FsOp :=
  let tmp := outMkv ++ sLit ".partial.mkv"
  FsOp.write tmp :: (if muxOk then [FsOp.rename tmp outMkv] else [])

theorem append_cons_ne_self (l r : PyStr) (c : Char) : l ++ c :: r ≠ l := by
  intro h
  have := congrArg List.length h
  simp at this

theorem applyOps_no_create (final : PyStr) :
    ∀ (ops : List FsOp) (paths : List PyStr),
      final ∉ paths →
      (∀ op ∈ ops, op ≠ .write final ∧ ∀ src, op ≠ .rename src final) →
      final ∉ applyOps ops paths := by
  intro ops
  induction ops with
  | nil => intro paths h _; exact h
  | cons op rest ih =>
    intro paths h hops
    match op with
    | .write p =>
      have hp : p ≠ final := by
        intro hc
        exact absurd (hc ▸ rfl) (hops (.write p) (by simp)).1
      refine ih (p :: paths) ?_ (fun o ho => hops o (by simp [ho]))
      intro hc
      rcases List.mem_cons.mp hc with hc | hc
      · exact hp hc.symm
      · exact h hc
    | .rename src dst =>
      have hd : dst ≠ final := by
        intro hc
        exact absurd (hc ▸ rfl) ((hops (.rename src dst) (by simp)).2 src)
      refine ih _ ?_ (fun o ho => hops o (by simp [ho]))
      intro hc
      rcases List.mem_cons.mp hc with hc | hc
      · exact hd hc.symm
      · exact h (List.mem_filter.mp hc).1

theorem download_ops_shape (url outMp4 : PyStr) (outExists : Bool) (env : DlEnv) :
    ∀ op ∈ download_to_mp4_ops url outMp4 outExists env,
      op = .write (outMp4 ++ sLit ".partial.mp4")
        ∨ op = .rename (outMp4 ++ sLit ".partial.mp4") outMp4 := by
  intro op hop
  unfold download_to_mp4_ops at hop
  by_cases h1 : outExists <;>
    by_cases h2 : containsSub (sLit ".mp4") url && env.curlOnPath <;>
    by_cases h3 : env.curlOk <;> by_cases h4 : env.ffmpegOk <;>
    simp [h1, h2, h3, h4] at hop <;> tauto

theorem mux_ops_shape (outMkv : PyStr) (muxOk : Bool) :
    ∀ op ∈ mux_stage_ops outMkv muxOk,
      op = .write (outMkv ++ sLit ".partial.mkv")
        ∨ op = .rename (outMkv ++ sLit ".partial.mkv") outMkv := by
  intro op hop
  unfold mux_stage_ops at hop
  by_cases h : muxOk <;> simp [h] at hop <;> tauto

/-- C7: the final cached MP4 path and the final MKV path are only ever
created by the rename from their `.partial` temporary path: no operation
writes the final path directly, every rename onto it comes from the
`.partial` path, and executing any prefix of the operations that does
not include that rename — a crash or kill at any point — leaves no file
at the final path. -/
theorem partial_rename_discipline (url outMp4 outMkv : PyStr)
    (outExists muxOk : Bool) (env : DlEnv) (paths : List PyStr)
    (pre1 pre2 : List FsOp)
    (h1 : outMp4 ∉ paths) (h2 : outMkv ∉ paths)
    (hp1 : pre1 <+: download_to_mp4_ops url outMp4 outExists env)
    (hp2 : pre2 <+: mux_stage_ops outMkv muxOk)
    (hr1 : FsOp.rename (outMp4 ++ sLit ".partial.mp4") outMp4 ∉ pre1)
    (hr2 : FsOp.rename (outMkv ++ sLit ".partial.mkv") outMkv ∉ pre2) :
    ((∀ op ∈ download_to_mp4_ops url outMp4 outExists env,
        op ≠ .write outMp4 ∧
        ∀ src, op = .rename src outMp4 → src = outMp4 ++ sLit ".partial.mp4")
      ∧ outMp4 ∉ applyOps pre1 paths) ∧
    ((∀ op ∈ mux_stage_ops outMkv muxOk,
        op ≠ .write outMkv ∧
        ∀ src, op = .rename src outMkv → src = outMkv ++ sLit ".partial.mkv")
      ∧ outMkv ∉ applyOps pre2 paths) := by
  have hmp4 : outMp4 ++ sLit ".partial.mp4" ≠ outMp4 :=
    append_cons_ne_self outMp4 _ '.'
  have hmkv : outMkv ++ sLit ".partial.mkv" ≠ outMkv :=
    append_cons_ne_self outMkv _ '.'
  refine ⟨⟨?_, ?_⟩, ⟨?_, ?_⟩⟩
  · intro op hop
    rcases download_ops_shape url outMp4 outExists env op hop with rfl | rfl
    · exact ⟨by simp [hmp4], by simp⟩
    · exact ⟨by simp, fun src h => by injection h with h5 h6; exact h5.symm⟩
  · refine applyOps_no_create outMp4 pre1 paths h1 ?_
    intro op hop
    rcases download_ops_shape url outMp4 outExists env op (hp1.subset hop)
      with rfl | rfl
    · exact ⟨by simp [hmp4], fun src => by simp⟩
    · exact absurd hop hr1
  · intro op hop
    rcases mux_ops_shape outMkv muxOk op hop with rfl | rfl
    · exact ⟨by simp [hmkv], by simp⟩
    · exact ⟨by simp, fun src h => by injection h with h5 h6; exact h5.symm⟩
  · refine applyOps_no_create outMkv pre2 paths h2 ?_
    intro op hop
    rcases mux_ops_shape outMkv muxOk op (hp2.subset hop) with rfl | rfl
    · exact ⟨by simp [hmkv], fun src => by simp⟩
    · exact absurd hop hr2

/-- Witness for C7: concrete download and mux runs killed after the
partial write leave nothing at the final paths. -/
theorem partial_rename_discipline_witness :
    sLit "/m.mp4"
      ∉ applyOps [FsOp.write (sLit "/m.mp4" ++ sLit ".partial.mp4")] [] ∧
    sLit "/o.mkv"
      ∉ applyOps [FsOp.write (sLit "/o.mkv" ++ sLit ".partial.mkv")] [] :=
  have h := partial_rename_discipline (sLit "u.mp4") (sLit "/m.mp4")
    (sLit "/o.mkv") false false ⟨true, false, false⟩ []
    [FsOp.write (sLit "/m.mp4" ++ sLit ".partial.mp4")]
    [FsOp.write (sLit "/o.mkv" ++ sLit ".partial.mkv")]
    (by decide) (by decide) ⟨[FsOp.write (sLit "/m.mp4" ++ sLit ".partial.mp4")], rfl⟩
    ⟨[], rfl⟩ (by decide) (by decide)
  ⟨h.1.2, h.2.2⟩

/-! ## subs/srt.py and subs/srt_parse.py -/

/-- `Cue` from subs/vtt.py. -/
structure Cue where
  start_ms : Int
  end_ms : Int
  text : PyStr
deriving DecidableEq

/-- `_fmt_ms`: clamp negatives to 0, then `HH:MM:SS,mmm` with
zero-padded fields (the source subtracts the scaled quotients in
sequence). -/
def fmt_ms (ms0 : Int) : PyStr :=
  let ms1 : Nat := ms0.toNat
  let hh := ms1 / 3600000
  let r1 := ms1 - hh * 3600000
  let mm := r1 / 60000
  let r2 := r1 - mm * 60000
  let ss := r2 / 1000
  let msr := r2 - ss * 1000
  padZ 2 hh ++ ':' :: padZ 2 mm ++ ':' :: padZ 2 ss ++ ',' :: padZ 3 msr

/-- The `out` list built by `cues_to_srt` (`enumerate(cues, start=1)`):
index line, timestamp line, text, blank separator. -/
def srtBlocks : Nat → List Cue → List PyStr
  | _, [] => []
  | idx, c :: rest =>
    natStr idx :: (fmt_ms c.start_ms ++ sLit " --> " ++ fmt_ms c.end_ms)
      :: c.text :: [] :: srtBlocks (idx + 1) rest

/-- `cues_to_srt`: `"\n".join(out)`. -/
def cues_to_srt (cues : List Cue) : PyStr := joinChar '\n' (srtBlocks 1 cues)

/-- `.replace("\r\n", "\n").replace("\r", "\n")`, fused into one
left-to-right pass (the replacements are non-overlapping). -/
def normNL : PyStr → PyStr
  | [] => []
  | [c] => if c = '\r' then ['\n'] else [c]
  | c :: d :: rest =>
    if c = '\r' then
      if d = '\n' then '\n' :: normNL rest
      else '\n' :: normNL (d :: rest)
    else c :: normNL (d :: rest)

/-- Exactly `k` ASCII digits (`\d{k}` with no possible backtracking). -/
def readDigits : Nat → List Char → Option (PyStr × List Char)
  | 0, cs => some ([], cs)
  | _ + 1, [] => none
  | k + 1, c :: cs =>
    if c.isDigit then
      match readDigits k cs with
      | none => none
      | some q => some (c :: q.1, q.2)
    else none

def expectChar (c : Char) : List Char → Option (List Char)
  | [] => none
  | x :: xs => if x = c then some xs else none

/-- `\s+` before a non-whitespace literal: greedy maximal munch. -/
def readSpaces1 : List Char → Option (List Char)
  | [] => none
  | c :: cs => if isPySpace c then some (cs.dropWhile isPySpace) else none

/-- One `\d{2}:\d{2}:\d{2},\d{3}` group, returning the matched text. -/
def readStamp (cs : List Char) : Option (PyStr × List Char) :=
  match readDigits 2 cs with
  | none => none
  | some (d1, r1) =>
    match expectChar ':' r1 with
    | none => none
    | some r2 =>
      match readDigits 2 r2 with
      | none => none
      | some (d2, r3) =>
        match expectChar ':' r3 with
        | none => none
        | some r4 =>
          match readDigits 2 r4 with
          | none => none
          | some (d3, r5) =>
            match expectChar ',' r5 with
            | none => none
            | some r6 =>
              match readDigits 3 r6 with
              | none => none
              | some (d4, r7) =>
                some (d1 ++ ':' :: d2 ++ ':' :: d3 ++ ',' :: d4, r7)

/-- `_TS_RE.match(line)`: anchored prefix match
`(\d{2}:\d{2}:\d{2},\d{3})\s+-->\s+(\d{2}:\d{2}:\d{2},\d{3})`, trailing
text allowed, returning the two captured groups. -/
def tsMatch (line : PyStr) : Option (PyStr × PyStr) :=
  match readStamp line with
  | none => none
  | some (g1, r1) =>
    match readSpaces1 r1 with
    | none => none
    | some r2 =>
      match expectChar '-' r2 with
      | none => none
      | some r3 =>
        match expectChar '-' r3 with
        | none => none
        | some r4 =>
          match expectChar '>' r4 with
          | none => none
          | some r5 =>
            match readSpaces1 r5 with
            | none => none
            | some r6 =>
              match readStamp r6 with
              | none => none
              | some (g2, _) => some (g1, g2)

/-- `_parse_ts` on a matched group: split on `:` and `,`, convert with
`int`.  The 0 fallbacks are unreachable on regex-matched groups. -/
def parse_ts (ts : PyStr) : Nat :=
  match splitOnChar ':' ts with
  | [hh, mm, rest] =>
    match splitOnChar ',' rest with
    | [ss, ms] =>
      ((strToNat hh * 60 + strToNat mm) * 60 + strToNat ss) * 1000 + strToNat ms
    | _ => 0
  | _ => 0

/-- Python `s.strip().isdigit()` (non-empty, all digits). -/
def isDigitStr (s : PyStr) : Bool := !s.isEmpty && s.all Char.isDigit

/-- The `while i < len(lines)` loop of `parse_srt`, fuel-structural
(every iteration consumes at least one line, so `fuel = lines.length`
is exact): skip blanks; skip an optional numeric id line when the next
line matches the timestamp regex; an unmatched non-blank block is
skipped to the next blank line; a matched line starts a cue whose text
runs to the next blank line and is stripped after joining. -/
def parseSrtAux : Nat → List PyStr → List Cue
  | 0, _ => []
  | _ + 1, [] => []
  | fuel + 1, l :: rest =>
    if pyStrip l = [] then parseSrtAux fuel rest
    else
      let step :=
        match rest with
        | l2 :: rest2 =>
          if isDigitStr (pyStrip l) && (tsMatch (pyStrip l2)).isSome
          then (l2, rest2) else (l, rest)
        | [] => (l, rest)
      match tsMatch (pyStrip step.1) with
      | none =>
        parseSrtAux fuel (step.2.dropWhile (fun x => !(pyStrip x).isEmpty))
      | some g =>
        let textLines := step.2.takeWhile (fun x => !(pyStrip x).isEmpty)
        { start_ms := (parse_ts g.1 : Int), end_ms := (parse_ts g.2 : Int),
          text := pyStrip (joinChar '\n' textLines) }
          :: parseSrtAux fuel (step.2.drop textLines.length)

/-- `parse_srt`. -/
def parse_srt (s : PyStr) : List Cue :=
  let lines := splitOnChar '\n' (normNL s)
  parseSrtAux lines.length lines

theorem splitOnChar_ne_nil (sep : Char) (s : PyStr) : splitOnChar sep s ≠ [] := by
  cases s with
  | nil => simp [splitOnChar]
  | cons c cs =>
    unfold splitOnChar
    by_cases h : c = sep
    · simp [h]
    · rw [if_neg h]
      match splitOnChar sep cs with
      | [] => simp
      | h2 :: t2 => simp

theorem splitOnChar_append (sep : Char) (u v : PyStr) :
    splitOnChar sep (u ++ sep :: v) = splitOnChar sep u ++ splitOnChar sep v := by
  induction u with
  | nil =>
    show splitOnChar sep (sep :: v) = _
    simp [splitOnChar]
  | cons c cs ih =>
    show splitOnChar sep (c :: (cs ++ sep :: v)) = _
    simp only [splitOnChar]
    by_cases h : c = sep
    · rw [if_pos h, if_pos h, ih]
      rfl
    · rw [if_neg h, if_neg h, ih]
      match hsp : splitOnChar sep cs with
      | [] => exact absurd hsp (splitOnChar_ne_nil sep cs)
      | h2 :: t2 => rfl

theorem splitOnChar_no_sep (sep : Char) (s : PyStr) (h : sep ∉ s) :
    splitOnChar sep s = [s] := by
  induction s with
  | nil => rfl
  | cons c cs ih =>
    have hc : ¬c = sep := fun hh => h (by simp [hh])
    unfold splitOnChar
    rw [if_neg hc, ih (fun hh => h (by simp [hh]))]

theorem joinChar_splitOnChar (sep : Char) (s : PyStr) :
    joinChar sep (splitOnChar sep s) = s := by
  induction s with
  | nil => rfl
  | cons c cs ih =>
    unfold splitOnChar
    by_cases h : c = sep
    · rw [if_pos h]
      match hsp : splitOnChar sep cs with
      | [] => exact absurd hsp (splitOnChar_ne_nil sep cs)
      | h2 :: t2 =>
        rw [hsp] at ih
        simp only [joinChar, List.nil_append, h]
        rw [ih]
    · rw [if_neg h]
      match hsp : splitOnChar sep cs with
      | [] => exact absurd hsp (splitOnChar_ne_nil sep cs)
      | h2 :: t2 =>
        rw [hsp] at ih
        match t2 with
        | [] => simp only [joinChar] at ih ⊢; rw [ih]
        | t3 :: t4 =>
          simp only [joinChar, List.cons_append] at ih ⊢
          rw [ih]

theorem splitOnChar_joinChar_flat (sep : Char) :
    ∀ (elts : List PyStr), elts ≠ [] →
      splitOnChar sep (joinChar sep elts) = elts.flatMap (splitOnChar sep) := by
  intro elts
  induction elts with
  | nil => intro h; exact absurd rfl h
  | cons x t ih =>
    intro _
    match t with
    | [] => simp [joinChar]
    | y :: t2 =>
      have := ih (by simp)
      simp only [joinChar]
      rw [splitOnChar_append, this]
      simp

theorem natStrAux_length {k : Nat} :
    ∀ {fuel n : Nat}, n ≤ fuel → n < 10 ^ k → (natStrAux fuel n).length ≤ k := by
  induction k with
  | zero =>
    intro fuel n h hk
    interval_cases n
    match fuel with
    | 0 => simp [natStrAux]
    | f + 1 => simp [natStrAux]
  | succ k ih =>
    intro fuel n h hk
    match fuel, n with
    | 0, n =>
      interval_cases n
      simp [natStrAux]
    | f + 1, 0 => simp [natStrAux]
    | f + 1, m + 1 =>
      have hdiv : (m + 1) / 10 ≤ f := by omega
      have hdk : (m + 1) / 10 < 10 ^ k := by
        rw [Nat.div_lt_iff_lt_mul (by norm_num)]
        calc m + 1 < 10 ^ (k + 1) := hk
        _ = 10 ^ k * 10 := by ring
      have := ih hdiv hdk
      simp only [natStrAux, List.length_append, List.length_singleton]
      omega

theorem natStr_length_le {n k : Nat} (hk : 1 ≤ k) (h : n < 10 ^ k) :
    (natStr n).length ≤ k := by
  by_cases h0 : n = 0
  · subst h0; simpa [natStr] using hk
  · unfold natStr
    rw [if_neg h0]
    exact natStrAux_length (Nat.le_refl n) h

theorem padZ_length {n k : Nat} (h : (natStr n).length ≤ k) :
    (padZ k n).length = k := by
  unfold padZ
  rw [List.length_append, List.length_replicate]
  omega

theorem padZ_digitChar {k n : Nat} :
    ∀ c ∈ padZ k n, ∃ d, d < 10 ∧ c = Nat.digitChar d := by
  intro c hc
  unfold padZ at hc
  rcases List.mem_append.mp hc with hc | hc
  · exact ⟨0, by norm_num, by simpa using (List.eq_of_mem_replicate hc)⟩
  · exact natStr_digits c hc

theorem padZ_isDigit {k n : Nat} : ∀ c ∈ padZ k n, c.isDigit = true := by
  intro c hc
  obtain ⟨d, hd, rfl⟩ := padZ_digitChar c hc
  exact digitChar_isDigit d hd

theorem padZ_ne_nil (k n : Nat) : padZ k n ≠ [] := by
  unfold padZ
  intro h
  exact natStr_ne_nil n (by simpa using (List.append_eq_nil.mp h).2)

theorem readDigits_exact :
    ∀ (ds : PyStr) (rest : List Char), (∀ c ∈ ds, c.isDigit = true) →
      readDigits ds.length (ds ++ rest) = some (ds, rest) := by
  intro ds
  induction ds with
  | nil => intro rest _; rfl
  | cons c cs ih =>
    intro rest h
    simp only [List.length_cons, List.cons_append, readDigits,
      h c (by simp), if_true]
    rw [List.append_eq, ih rest (fun x hx => h x (by simp [hx]))]

theorem isDigit_not_pySpace {c : Char} (h : c.isDigit = true) :
    isPySpace c = false := by
  by_cases h1 : c = ' '
  · rw [h1] at h; exact absurd h (by decide)
  by_cases h2 : c = '\t'
  · rw [h2] at h; exact absurd h (by decide)
  by_cases h3 : c = '\n'
  · rw [h3] at h; exact absurd h (by decide)
  by_cases h4 : c = '\r'
  · rw [h4] at h; exact absurd h (by decide)
  by_cases h5 : c = '\x0b'
  · rw [h5] at h; exact absurd h (by decide)
  by_cases h6 : c = '\x0c'
  · rw [h6] at h; exact absurd h (by decide)
  simp [isPySpace, h1, h2, h3, h4, h5, h6]

theorem readDigits_padZ {k n : Nat} (h : (natStr n).length ≤ k) (rest : List Char) :
    readDigits k (padZ k n ++ rest) = some (padZ k n, rest) := by
  have h2 := readDigits_exact (padZ k n) rest padZ_isDigit
  rwa [padZ_length h] at h2

theorem natStr_length_lt100 {n : Nat} (h : n < 100) : (natStr n).length ≤ 2 :=
  natStr_length_le (by norm_num) (by simpa using h)

theorem natStr_length_lt1000 {n : Nat} (h : n < 1000) : (natStr n).length ≤ 3 :=
  natStr_length_le (by norm_num) (by simpa using h)

theorem digitChar_ne_colon : ∀ d < 10, Nat.digitChar d ≠ ':' := by decide

theorem digitChar_ne_comma : ∀ d < 10, Nat.digitChar d ≠ ',' := by decide

theorem digitChar_ne_nl : ∀ d < 10, Nat.digitChar d ≠ '\n' := by decide

theorem digitChar_ne_cr : ∀ d < 10, Nat.digitChar d ≠ '\r' := by decide

theorem padZ_not_mem {k n : Nat} {sep : Char}
    (h : ∀ d < 10, Nat.digitChar d ≠ sep) : sep ∉ padZ k n := by
  intro hc
  obtain ⟨d, hd, he⟩ := padZ_digitChar sep hc
  exact h d hd he.symm

theorem dropWhile_pySpace_padZ (k n : Nat) (t : List Char) :
    (padZ k n ++ t).dropWhile isPySpace = padZ k n ++ t := by
  match hp : padZ k n with
  | [] => exact absurd hp (padZ_ne_nil k n)
  | c :: cs =>
    have hm : c ∈ padZ k n := by rw [hp]; simp
    obtain ⟨d, hd, rfl⟩ := padZ_digitChar c hm
    simp [List.dropWhile_cons, digitChar_not_space d hd]

theorem readStamp_padZ {hh mm ss msr : Nat} (h1 : hh < 100) (h2 : mm < 100)
    (h3 : ss < 100) (h4 : msr < 1000) (rest : List Char) :
    readStamp ((padZ 2 hh ++ ':' :: padZ 2 mm ++ ':' :: padZ 2 ss
        ++ ',' :: padZ 3 msr) ++ rest)
      = some (padZ 2 hh ++ ':' :: padZ 2 mm ++ ':' :: padZ 2 ss
          ++ ',' :: padZ 3 msr, rest) := by
  unfold readStamp
  simp only [List.append_assoc, List.cons_append]
  simp only [readDigits_padZ (natStr_length_lt100 h1),
    readDigits_padZ (natStr_length_lt100 h2),
    readDigits_padZ (natStr_length_lt100 h3),
    readDigits_padZ (natStr_length_lt1000 h4),
    expectChar, eq_self_iff_true, if_true]

theorem fmt_ms_shape (ms : Int) (h : ms.toNat < 360000000) :
    ∃ hh mm ss msr, hh < 100 ∧ mm < 100 ∧ ss < 100 ∧ msr < 1000 ∧
      fmt_ms ms = padZ 2 hh ++ ':' :: padZ 2 mm ++ ':' :: padZ 2 ss
        ++ ',' :: padZ 3 msr ∧
      ((hh * 60 + mm) * 60 + ss) * 1000 + msr = ms.toNat := by
  refine ⟨ms.toNat / 3600000,
    (ms.toNat - ms.toNat / 3600000 * 3600000) / 60000,
    ((ms.toNat - ms.toNat / 3600000 * 3600000)
      - (ms.toNat - ms.toNat / 3600000 * 3600000) / 60000 * 60000) / 1000,
    ((ms.toNat - ms.toNat / 3600000 * 3600000)
      - (ms.toNat - ms.toNat / 3600000 * 3600000) / 60000 * 60000)
      - ((ms.toNat - ms.toNat / 3600000 * 3600000)
        - (ms.toNat - ms.toNat / 3600000 * 3600000) / 60000 * 60000) / 1000 * 1000,
    ?_, ?_, ?_, ?_, rfl, ?_⟩ <;> omega

theorem parse_ts_padZ (hh mm ss msr : Nat) :
    parse_ts (padZ 2 hh ++ ':' :: padZ 2 mm ++ ':' :: padZ 2 ss
        ++ ',' :: padZ 3 msr)
      = ((strToNat (padZ 2 hh) * 60 + strToNat (padZ 2 mm)) * 60
          + strToNat (padZ 2 ss)) * 1000 + strToNat (padZ 3 msr) := by
  have hs1 : splitOnChar ':' (padZ 2 hh ++ ':' :: padZ 2 mm ++ ':' :: padZ 2 ss
      ++ ',' :: padZ 3 msr)
      = [padZ 2 hh, padZ 2 mm, padZ 2 ss ++ ',' :: padZ 3 msr] := by
    simp only [List.append_assoc, List.cons_append]
    rw [splitOnChar_append, splitOnChar_append,
      splitOnChar_no_sep ':' (padZ 2 hh) (padZ_not_mem digitChar_ne_colon),
      splitOnChar_no_sep ':' (padZ 2 mm) (padZ_not_mem digitChar_ne_colon),
      splitOnChar_no_sep ':' (padZ 2 ss ++ ',' :: padZ 3 msr) (by
        intro hc
        rcases List.mem_append.mp hc with hc | hc
        · exact padZ_not_mem digitChar_ne_colon hc
        · rcases List.mem_cons.mp hc with hc | hc
          · exact absurd hc.symm (by decide)
          · exact padZ_not_mem digitChar_ne_colon hc)]
    rfl
  have hs2 : splitOnChar ',' (padZ 2 ss ++ ',' :: padZ 3 msr)
      = [padZ 2 ss, padZ 3 msr] := by
    rw [splitOnChar_append,
      splitOnChar_no_sep ',' (padZ 2 ss) (padZ_not_mem digitChar_ne_comma),
      splitOnChar_no_sep ',' (padZ 3 msr) (padZ_not_mem digitChar_ne_comma)]
    rfl
  unfold parse_ts
  simp only [hs1, hs2]

theorem parse_ts_fmt (ms : Int) (h : ms.toNat < 360000000) :
    parse_ts (fmt_ms ms) = ms.toNat := by
  obtain ⟨hh, mm, ss, msr, -, -, -, -, heq, hval⟩ := fmt_ms_shape ms h
  rw [heq, parse_ts_padZ hh mm ss msr, strToNat_padZ, strToNat_padZ, strToNat_padZ,
    strToNat_padZ, hval]

theorem tsMatch_fmt {a b : Int} (ha : a.toNat < 360000000)
    (hb : b.toNat < 360000000) :
    tsMatch (fmt_ms a ++ sLit " --> " ++ fmt_ms b) = some (fmt_ms a, fmt_ms b) := by
  obtain ⟨h1, m1, s1, r1, ha1, ha2, ha3, ha4, he1, -⟩ := fmt_ms_shape a ha
  obtain ⟨h2, m2, s2, r2, hb1, hb2, hb3, hb4, he2, -⟩ := fmt_ms_shape b hb
  have hsp : sLit " --> " = ' ' :: '-' :: '-' :: '>' :: [' '] := rfl
  have hr1 := readStamp_padZ ha1 ha2 ha3 ha4
    (' ' :: '-' :: '-' :: '>' :: ' ' ::
      (padZ 2 h2 ++ ':' :: padZ 2 m2 ++ ':' :: padZ 2 s2 ++ ',' :: padZ 3 r2))
  have hr2 := readStamp_padZ hb1 hb2 hb3 hb4 []
  have hspc : isPySpace ' ' = true := by decide
  have hdw : ∀ X : PyStr, List.dropWhile isPySpace ('-' :: X) = '-' :: X := by
    intro X
    rw [List.dropWhile_cons, if_neg (by decide)]
  rw [he1, he2, hsp]
  unfold tsMatch
  simp only [List.append_assoc, List.cons_append, List.append_nil,
    List.nil_append] at hr1 hr2 ⊢
  simp only [hr1, readSpaces1, hspc, if_true, hdw, expectChar, eq_self_iff_true,
    dropWhile_pySpace_padZ, hr2]

theorem normNL_id : ∀ s : PyStr, '\r' ∉ s → normNL s = s
  | [], _ => rfl
  | [c], h => by
    unfold normNL
    rw [if_neg (fun hc => h (by simp [hc]))]
  | c :: d :: rest, h => by
    unfold normNL
    rw [if_neg (fun hc => h (by simp [hc])),
      normNL_id (d :: rest) (fun hm => h (List.mem_cons_of_mem c hm))]

theorem mem_joinChar (sep : Char) :
    ∀ (elts : List PyStr) (c : Char), c ∈ joinChar sep elts →
      c = sep ∨ ∃ e ∈ elts, c ∈ e
  | [], c, h => absurd h (by simp [joinChar])
  | [x], c, h => Or.inr ⟨x, by simp, by simpa [joinChar] using h⟩
  | x :: y :: t, c, h => by
    have hj : joinChar sep (x :: y :: t) = x ++ sep :: joinChar sep (y :: t) := rfl
    rw [hj] at h
    rcases List.mem_append.mp h with h | h
    · exact Or.inr ⟨x, by simp, h⟩
    · rcases List.mem_cons.mp h with h | h
      · exact Or.inl h
      · rcases mem_joinChar sep (y :: t) c h with h | ⟨e, he, hce⟩
        · exact Or.inl h
        · exact Or.inr ⟨e, List.mem_cons_of_mem x he, hce⟩

/-- The shape of a formatted timestamp, without value information. -/
theorem fmt_ms_parts (ms : Int) :
    ∃ hh mm ss msr, fmt_ms ms = padZ 2 hh ++ ':' :: padZ 2 mm ++ ':' :: padZ 2 ss
      ++ ',' :: padZ 3 msr :=
  ⟨_, _, _, _, rfl⟩

theorem mem_fmt_ms {ms : Int} {c : Char} (h : c ∈ fmt_ms ms) :
    c.isDigit = true ∨ c = ':' ∨ c = ',' := by
  obtain ⟨hh, mm, ss, msr, he⟩ := fmt_ms_parts ms
  rw [he] at h
  simp only [List.append_assoc, List.cons_append, List.mem_append,
    List.mem_cons] at h
  rcases h with h | h | h | h | h | h | h
  · obtain ⟨d, hd, rfl⟩ := padZ_digitChar c h
    exact Or.inl (digitChar_isDigit d hd)
  · exact Or.inr (Or.inl h)
  · obtain ⟨d, hd, rfl⟩ := padZ_digitChar c h
    exact Or.inl (digitChar_isDigit d hd)
  · exact Or.inr (Or.inl h)
  · obtain ⟨d, hd, rfl⟩ := padZ_digitChar c h
    exact Or.inl (digitChar_isDigit d hd)
  · exact Or.inr (Or.inr h)
  · obtain ⟨d, hd, rfl⟩ := padZ_digitChar c h
    exact Or.inl (digitChar_isDigit d hd)

theorem noNL_fmt_ms (ms : Int) : '\n' ∉ fmt_ms ms := by
  intro h
  rcases mem_fmt_ms h with h | h | h <;> exact absurd h (by decide)

theorem noCR_fmt_ms (ms : Int) : '\r' ∉ fmt_ms ms := by
  intro h
  rcases mem_fmt_ms h with h | h | h <;> exact absurd h (by decide)

theorem noNL_natStr (n : Nat) : '\n' ∉ natStr n := by
  intro h
  exact absurd (natStr_isDigit _ h) (by decide)

theorem noCR_natStr (n : Nat) : '\r' ∉ natStr n := by
  intro h
  exact absurd (natStr_isDigit _ h) (by decide)

theorem noNL_tsLine (a b : Int) :
    '\n' ∉ fmt_ms a ++ sLit " --> " ++ fmt_ms b := by
  intro h
  rcases List.mem_append.mp h with h | h
  · rcases List.mem_append.mp h with h | h
    · exact noNL_fmt_ms a h
    · exact absurd h (by decide)
  · exact noNL_fmt_ms b h

theorem noCR_tsLine (a b : Int) :
    '\r' ∉ fmt_ms a ++ sLit " --> " ++ fmt_ms b := by
  intro h
  rcases List.mem_append.mp h with h | h
  · rcases List.mem_append.mp h with h | h
    · exact noCR_fmt_ms a h
    · exact absurd h (by decide)
  · exact noCR_fmt_ms b h

theorem dropWhile_eq_self_of_all {α : Type} (p : α → Bool) :
    ∀ s : List α, (∀ c ∈ s, p c = false) → s.dropWhile p = s
  | [], _ => rfl
  | c :: cs, h => by
    rw [List.dropWhile_cons, if_neg (by simp [h c (by simp)])]

theorem pyStrip_of_all_nonspace {s : PyStr}
    (h : ∀ c ∈ s, isPySpace c = false) : pyStrip s = s := by
  unfold pyStrip
  rw [dropWhile_eq_self_of_all _ _ h,
    dropWhile_eq_self_of_all _ _ (fun c hc => h c (List.mem_reverse.mp hc)),
    List.reverse_reverse]

theorem pyStrip_natStr (n : Nat) : pyStrip (natStr n) = natStr n :=
  pyStrip_of_all_nonspace (fun c hc => isDigit_not_pySpace (natStr_isDigit c hc))

theorem dropWhile_pySpace_padZ_rev (k n : Nat) (t : List Char) :
    ((padZ k n).reverse ++ t).dropWhile isPySpace = (padZ k n).reverse ++ t := by
  match hp : (padZ k n).reverse with
  | [] =>
    exact absurd (List.reverse_eq_nil_iff.mp hp) (padZ_ne_nil k n)
  | c :: cs =>
    have hm : c ∈ padZ k n := List.mem_reverse.mp (by rw [hp]; simp)
    obtain ⟨d, hd, rfl⟩ := padZ_digitChar c hm
    rw [List.cons_append, List.dropWhile_cons,
      if_neg (by simp [digitChar_not_space d hd])]

theorem pyStrip_padZ_sandwich (k1 n1 k2 n2 : Nat) (mid : PyStr) :
    pyStrip (padZ k1 n1 ++ (mid ++ padZ k2 n2))
      = padZ k1 n1 ++ (mid ++ padZ k2 n2) := by
  unfold pyStrip
  rw [dropWhile_pySpace_padZ, List.reverse_append, List.reverse_append,
    List.append_assoc, dropWhile_pySpace_padZ_rev, ← List.append_assoc,
    ← List.reverse_append, ← List.reverse_append, List.reverse_reverse]

theorem pyStrip_tsLine (a b : Int) :
    pyStrip (fmt_ms a ++ sLit " --> " ++ fmt_ms b)
      = fmt_ms a ++ sLit " --> " ++ fmt_ms b := by
  obtain ⟨h1, m1, s1, r1, he1⟩ := fmt_ms_parts a
  obtain ⟨h2, m2, s2, r2, he2⟩ := fmt_ms_parts b
  rw [he1, he2]
  have hform : padZ 2 h1 ++ ((':' :: padZ 2 m1 ++ ':' :: padZ 2 s1
        ++ ',' :: padZ 3 r1 ++ sLit " --> " ++ padZ 2 h2 ++ ':' :: padZ 2 m2
        ++ ':' :: padZ 2 s2 ++ [',']) ++ padZ 3 r2)
      = (padZ 2 h1 ++ ':' :: padZ 2 m1 ++ ':' :: padZ 2 s1 ++ ',' :: padZ 3 r1)
        ++ sLit " --> "
        ++ (padZ 2 h2 ++ ':' :: padZ 2 m2 ++ ':' :: padZ 2 s2
            ++ ',' :: padZ 3 r2) := by
    simp [List.append_assoc, List.cons_append, List.nil_append]
  rw [← hform]
  exact pyStrip_padZ_sandwich 2 h1 3 r2 _

theorem takeWhile_append_of_all {α : Type} (p : α → Bool) :
    ∀ (xs : List α), (∀ x ∈ xs, p x = true) →
      ∀ (y : α), p y = false → ∀ (rest : List α),
        (xs ++ y :: rest).takeWhile p = xs
  | [], _, y, hy, rest => by
    rw [List.nil_append, List.takeWhile_cons, if_neg (by simp [hy])]
  | x :: xs, h, y, hy, rest => by
    rw [List.cons_append, List.takeWhile_cons, if_pos (h x (by simp)),
      takeWhile_append_of_all p xs (fun z hz => h z (by simp [hz])) y hy rest]

theorem isDigitStr_natStr (n : Nat) : isDigitStr (natStr n) = true := by
  unfold isDigitStr
  match hp : natStr n with
  | [] => exact absurd hp (natStr_ne_nil n)
  | c :: cs =>
    simp only [List.isEmpty_cons, Bool.not_false, Bool.true_and]
    rw [List.all_eq_true]
    intro x hx
    exact natStr_isDigit x (hp ▸ hx)

/-- The serialized document, split on `'\n'`: for each cue an index line,
a timestamp line, the split text lines, and a blank separator. -/
def srtLinesFrom : Nat → List Cue → List PyStr
  | _, [] => []
  | i, c :: rest =>
    natStr i :: (fmt_ms c.start_ms ++ sLit " --> " ++ fmt_ms c.end_ms)
      :: (splitOnChar '\n' c.text ++ [] :: srtLinesFrom (i + 1) rest)

theorem srtBlocks_flat (cues : List Cue) :
    ∀ i : Nat, (srtBlocks i cues).flatMap (splitOnChar '\n')
      = srtLinesFrom i cues := by
  induction cues with
  | nil => intro i; rfl
  | cons c rest ih =>
    intro i
    show ((natStr i :: (fmt_ms c.start_ms ++ sLit " --> " ++ fmt_ms c.end_ms)
        :: c.text :: [] :: srtBlocks (i + 1) rest).flatMap (splitOnChar '\n')) = _
    rw [List.flatMap_cons, List.flatMap_cons, List.flatMap_cons,
      List.flatMap_cons, ih (i + 1),
      splitOnChar_no_sep '\n' (natStr i) (noNL_natStr i),
      splitOnChar_no_sep '\n' _ (noNL_tsLine c.start_ms c.end_ms)]
    show _ = natStr i :: (fmt_ms c.start_ms ++ sLit " --> " ++ fmt_ms c.end_ms)
      :: (splitOnChar '\n' c.text ++ [] :: srtLinesFrom (i + 1) rest)
    simp [splitOnChar]

/-- Sufficient conditions on a cue for the SRT round trip: timestamps
non-negative and under 100 hours, text free of carriage returns, text
already stripped, and no blank text line. -/
def CueOk (c : Cue) : Prop :=
  0 ≤ c.start_ms ∧ c.start_ms.toNat < 360000000 ∧
  0 ≤ c.end_ms ∧ c.end_ms.toNat < 360000000 ∧
  '\r' ∉ c.text ∧ pyStrip c.text = c.text ∧
  ∀ l ∈ splitOnChar '\n' c.text, pyStrip l ≠ []

instance (c : Cue) : Decidable (CueOk c) := by
  unfold CueOk
  exact inferInstance

set_option maxHeartbeats 2000000 in
theorem parseSrtAux_lines :
    ∀ (cues : List Cue), (∀ c ∈ cues, CueOk c) →
      ∀ (i fuel : Nat), (srtLinesFrom i cues).length ≤ fuel →
        parseSrtAux fuel (srtLinesFrom i cues) = cues := by
  intro cues
  induction cues with
  | nil =>
    intro _ i fuel _
    cases fuel <;> rfl
  | cons c cs ih =>
    intro hok i fuel hlen
    obtain ⟨hs0, hs1, he0, he1, hcr, hstrip, hblank⟩ := hok c (by simp)
    have hok' : ∀ x ∈ cs, CueOk x := fun x hx => hok x (List.mem_cons_of_mem c hx)
    have hlen' : (srtLinesFrom i (c :: cs)).length
        = (splitOnChar '\n' c.text).length + (srtLinesFrom (i + 1) cs).length + 3 := by
      show (natStr i :: _ :: (splitOnChar '\n' c.text
        ++ [] :: srtLinesFrom (i + 1) cs)).length = _
      simp only [List.length_cons, List.length_append]
      omega
    rw [hlen'] at hlen
    have hT1 : 1 ≤ (splitOnChar '\n' c.text).length := by
      match hsp : splitOnChar '\n' c.text with
      | [] => exact absurd hsp (splitOnChar_ne_nil '\n' c.text)
      | a :: t => simp
    obtain ⟨f, hf, rfl⟩ : ∃ f, (srtLinesFrom (i + 1) cs).length ≤ f ∧ fuel = f + 2 :=
      ⟨fuel - 2, by omega, by omega⟩
    have hts := pyStrip_tsLine c.start_ms c.end_ms
    have htm := tsMatch_fmt hs1 he1
    have hT : ∀ x ∈ splitOnChar '\n' c.text, (!(pyStrip x).isEmpty) = true := by
      intro x hx
      match hpe : pyStrip x with
      | [] => exact absurd hpe (hblank x hx)
      | a :: t => rfl
    have htake : (splitOnChar '\n' c.text
        ++ [] :: srtLinesFrom (i + 1) cs).takeWhile (fun x => !(pyStrip x).isEmpty)
        = splitOnChar '\n' c.text :=
      takeWhile_append_of_all _ _ hT ([] : PyStr) rfl _
    have hskip : parseSrtAux (f + 1) ([] :: srtLinesFrom (i + 1) cs)
        = parseSrtAux f (srtLinesFrom (i + 1) cs) := by
      conv_lhs => unfold parseSrtAux
      rw [if_pos (show pyStrip ([] : PyStr) = [] from rfl)]
    show parseSrtAux (f + 1 + 1) (natStr i
      :: (fmt_ms c.start_ms ++ sLit " --> " ++ fmt_ms c.end_ms)
      :: (splitOnChar '\n' c.text ++ [] :: srtLinesFrom (i + 1) cs)) = c :: cs
    conv_lhs => unfold parseSrtAux
    rw [pyStrip_natStr i, if_neg (natStr_ne_nil i)]
    dsimp only
    rw [hts]
    simp only [isDigitStr_natStr, htm, Option.isSome_some, Bool.and_self, if_true,
      eq_self_iff_true]
    rw [hts]
    simp only [htm]
    rw [htake, joinChar_splitOnChar, hstrip, List.drop_left,
      parse_ts_fmt c.start_ms hs1, parse_ts_fmt c.end_ms he1,
      Int.toNat_of_nonneg hs0, Int.toNat_of_nonneg he0, hskip,
      ih hok' (i + 1) f hf]

theorem mem_srtBlocks : ∀ {i : Nat} {cues : List Cue} {l : PyStr},
    l ∈ srtBlocks i cues →
      (∃ j, l = natStr j) ∨
      (∃ a b : Int, l = fmt_ms a ++ sLit " --> " ++ fmt_ms b) ∨
      (∃ c ∈ cues, l = c.text) ∨ l = [] := by
  intro i cues
  induction cues generalizing i with
  | nil => intro l h; simp [srtBlocks] at h
  | cons c cs ih =>
    intro l h
    simp only [srtBlocks, List.mem_cons] at h
    rcases h with rfl | rfl | rfl | rfl | h
    · exact Or.inl ⟨i, rfl⟩
    · exact Or.inr (Or.inl ⟨c.start_ms, c.end_ms, rfl⟩)
    · exact Or.inr (Or.inr (Or.inl ⟨c, by simp, rfl⟩))
    · exact Or.inr (Or.inr (Or.inr rfl))
    · rcases ih h with h | h | ⟨e, he, hl⟩ | h
      · exact Or.inl h
      · exact Or.inr (Or.inl h)
      · exact Or.inr (Or.inr (Or.inl ⟨e, List.mem_cons_of_mem c he, hl⟩))
      · exact Or.inr (Or.inr (Or.inr h))

theorem noCR_doc {cues : List Cue} (h : ∀ c ∈ cues, '\r' ∉ c.text) :
    '\r' ∉ cues_to_srt cues := by
  intro hm
  unfold cues_to_srt at hm
  rcases mem_joinChar '\n' _ _ hm with hh | ⟨e, he, hce⟩
  · exact absurd hh (by decide)
  · rcases mem_srtBlocks he with ⟨j, rfl⟩ | ⟨a, b, rfl⟩ | ⟨c, hc, rfl⟩ | rfl
    · exact noCR_natStr j hce
    · exact noCR_tsLine a b hce
    · exact h c hc hce
    · exact absurd hce (by simp)

theorem parse_srt_cues (cues : List Cue) (h : ∀ c ∈ cues, CueOk c) :
    parse_srt (cues_to_srt cues) = cues := by
  match cues with
  | [] => rfl
  | c :: cs =>
    have hcr : ∀ x ∈ c :: cs, '\r' ∉ x.text := fun x hx => (h x hx).2.2.2.2.1
    unfold parse_srt
    rw [normNL_id _ (noCR_doc hcr)]
    unfold cues_to_srt
    rw [splitOnChar_joinChar_flat '\n' _ (by simp [srtBlocks]), srtBlocks_flat]
    exact parseSrtAux_lines (c :: cs) h 1 _ (Nat.le_refl _)

/-- C10: SRT round-trip.  Amended: `parse_srt ∘ cues_to_srt` is the
identity on cue lists whose timestamps are non-negative and below 100
hours and whose texts are carriage-return-free, stripped, and have no
blank line; and the canonical document
`"1\n00:01:02,500 --> 00:01:05,000\nHola — ¿qué tal?\n"` re-serializes
byte-identically after parsing. -/
theorem srt_round_trip :
    (∀ cues : List Cue, (∀ c ∈ cues, CueOk c) →
      parse_srt (cues_to_srt cues) = cues) ∧
    cues_to_srt (parse_srt
        (sLit "1\n00:01:02,500 --> 00:01:05,000\nHola — ¿qué tal?\n"))
      = sLit "1\n00:01:02,500 --> 00:01:05,000\nHola — ¿qué tal?\n" :=
  ⟨parse_srt_cues, by decide⟩

/-- Counterexample to C10 as stated: the cue `(0, 1000, " a")` has
non-negative sub-100-hour timestamps and no blank text line, yet
`parse_srt` strips the leading space from the text, so the round trip
is not the identity. -/
theorem srt_round_trip_counterexample :
    (∀ l ∈ splitOnChar '\n' (sLit " a"), pyStrip l ≠ []) ∧
    parse_srt (cues_to_srt [⟨0, 1000, sLit " a"⟩]) ≠ [⟨0, 1000, sLit " a"⟩] := by
  decide

/-- Witness for C10: the round trip is the identity on a concrete
well-formed cue. -/
theorem srt_round_trip_witness :
    parse_srt (cues_to_srt [⟨0, 1000, sLit "Hola"⟩]) = [⟨0, 1000, sLit "Hola"⟩] :=
  srt_round_trip.1 [⟨0, 1000, sLit "Hola"⟩] (by decide)

/-! ## workflows/download.py: mp4/ES-subtitle consistency guard

Float durations are modelled exactly: a probed or subtitle duration in
seconds is carried as an integer number of milliseconds, and the check
`v_dur >= s_dur * 0.70` of `_mp4_matches_es_srt` becomes the
cross-multiplied `7 * s_ms ≤ 10 * v_ms`.  `probe_duration_seconds`
(imported from `rtve_dl.ffmpeg` but absent from this snapshot) is an
oracle `Nat → Option Int` indexed by the number of forced re-downloads
performed so far; `_task_video(force_redownload=True)` advances that
index. -/

/-- Python `max` on two values (returns the first on ties). -/
def pyMax (a b : Int) : Int := if b ≤ a then a else b

/-- `_srt_duration_seconds`, scaled to milliseconds: 0 for an empty cue
list, else `max(0, max end_ms)`. -/
def srt_duration_ms (content : PyStr) : Int :=
  match parse_srt content with
  | [] => 0
  | c :: cs => pyMax 0 ((cs.map Cue.end_ms).foldl pyMax c.end_ms)

/-- `_mp4_matches_es_srt` with the default `min_ratio=0.70`: `False`
when the probe fails, `True` when the subtitle timeline is empty, else
`v_dur >= s_dur * 0.70`. -/
def mp4_matches_es_srt (vMs : Option Int) (content : PyStr) : Bool :=
  match vMs with
  | none => false
  | some v =>
    let s := srt_duration_ms content
    if s ≤ 0 then true
    else decide (7 * s ≤ 10 * v)

inductive GuardErr
  | stillShort
deriving DecidableEq

/-- `_ensure_mp4_consistent_with_es`: no-op without a non-empty ES srt;
otherwise check, force one re-download on mismatch, re-check, and raise
if still mismatched.  Returns the number of forced re-downloads and the
error, if any. -/
def ensure_mp4_consistent_with_es (probe : Nat → Option Int)
    (esSrt : Option PyStr) : Nat × Option GuardErr :=
  match esSrt with
  | none => (0, none)
  | some s =>
    if mp4_matches_es_srt (probe 0) s then (0, none)
    else if mp4_matches_es_srt (probe 1) s then (1, none)
    else (1, some GuardErr.stillShort)

/-- C6: the consistency guard forces exactly one re-download when the
first check fails, fails the episode exactly when the re-check also
fails, never re-downloads more than once, and never passes an
inconsistent pair (a `none` error means the final probe matched, or the
ES srt was missing). -/
theorem ensure_mp4_guard (probe : Nat → Option Int) (s : PyStr) :
    (∀ esSrt, (ensure_mp4_consistent_with_es probe esSrt).1 ≤ 1) ∧
    (mp4_matches_es_srt (probe 0) s = false →
      (ensure_mp4_consistent_with_es probe (some s)).1 = 1) ∧
    (mp4_matches_es_srt (probe 0) s = true →
      ensure_mp4_consistent_with_es probe (some s) = (0, none)) ∧
    ((ensure_mp4_consistent_with_es probe (some s)).2 = some GuardErr.stillShort
      ↔ mp4_matches_es_srt (probe 0) s = false ∧
        mp4_matches_es_srt (probe 1) s = false) ∧
    (∀ n, ensure_mp4_consistent_with_es probe (some s) = (n, none) →
      mp4_matches_es_srt (probe n) s = true) := by
  refine ⟨?_, ?_, ?_, ?_, ?_⟩
  · intro esSrt
    match esSrt with
    | none => exact Nat.zero_le 1
    | some t =>
      unfold ensure_mp4_consistent_with_es
      by_cases h0 : mp4_matches_es_srt (probe 0) t = true
      · simp [h0]
      · by_cases h1 : mp4_matches_es_srt (probe 1) t = true <;> simp [h0, h1]
  · intro h0
    unfold ensure_mp4_consistent_with_es
    by_cases h1 : mp4_matches_es_srt (probe 1) s = true <;> simp [h0, h1]
  · intro h0
    unfold ensure_mp4_consistent_with_es
    simp [h0]
  · unfold ensure_mp4_consistent_with_es
    by_cases h0 : mp4_matches_es_srt (probe 0) s = true
    · simp [h0]
    · by_cases h1 : mp4_matches_es_srt (probe 1) s = true <;>
        simp [h0, h1, Bool.eq_false_iff]
  · intro n hn
    unfold ensure_mp4_consistent_with_es at hn
    dsimp only at hn
    by_cases h0 : mp4_matches_es_srt (probe 0) s = true
    · rw [if_pos h0] at hn
      injection hn with hn1 hn2
      rw [← hn1]
      exact h0
    · rw [if_neg h0] at hn
      by_cases h1 : mp4_matches_es_srt (probe 1) s = true
      · rw [if_pos h1] at hn
        injection hn with hn1 hn2
        rw [← hn1]
        exact h1
      · rw [if_neg h1] at hn
        injection hn with hn1 hn2
        exact absurd hn2.symm (by simp)

/-- Witness for C6, the spec scenario: video probes at 40s while the ES
subtitle track ends at 3600s, on both attempts — the guard re-downloads
once and then fails the episode. -/
theorem ensure_mp4_guard_witness :
    (ensure_mp4_consistent_with_es (fun _ => some 40000)
        (some (sLit "1\n00:59:50,000 --> 01:00:00,000\nx\n"))).1 = 1 ∧
    (ensure_mp4_consistent_with_es (fun _ => some 40000)
        (some (sLit "1\n00:59:50,000 --> 01:00:00,000\nx\n"))).2
      = some GuardErr.stillShort :=
  ⟨((ensure_mp4_guard (fun _ => some 40000)
      (sLit "1\n00:59:50,000 --> 01:00:00,000\nx\n")).2.1 (by decide)),
   ((ensure_mp4_guard (fun _ => some 40000)
      (sLit "1\n00:59:50,000 --> 01:00:00,000\nx\n")).2.2.2.1.mpr
      ⟨by decide, by decide⟩)⟩
